import Mathlib

/-!
Verification development for the `gote` terminal log viewer.

This file gives a shallow embedding, in Lean 4, of the core components of the
repository:

* `bufferRecordList` (buffer_record_list.go, the revision that maintains the
  `linesAboveScreenTop` / `linesBelowScreenTop` / `linesTotal` counters and is
  the one the coordinator in buffer.go uses via `CalcScreenLines` and
  `ScrollToBottom`): the doubly-linked record list with a screen cursor.
  The doubly-linked list with its `screenTop` cursor is embedded as a zipper:
  `before` holds the records before the cursor (nearest first), `top` is the
  record `screenTop` points to, `after` holds the records after it (in list
  order).  `head` is the last element of `before` (or `top`), `tail` is the
  last element of `after` (or `top`).  In every state reachable through the
  Go API, `screenTop == nil` exactly when the list is empty, so the empty
  list is the `nil` zipper.
* `ReadBackwardsFrom` (reader/read_backwards.go).
* `BackwardsLineScanner` (reader/backwards_line_scanner.go, the revision whose
  `ReadLine` returns `(bytes, position, error)`).
* `ForwardsLineScanner` (reader/forwards_line_scanner.go).
* `calcLinesToReadUsingAvailableLines` (buffer.go).

Machine integers of Go (`int`, `int64`) are embedded as `Int`; byte slices as
`List Nat` (a byte is a `Nat`, `'\n'` is 10); `nil`-able byte slices as
`Option (List Nat)`.  Errors are an explicit inductive type.
-/

namespace Gote

/-- One parsed record (record.go).  Only the `lines` field (the word-wrapped
display lines) is relevant to the record-list logic. -/
structure record where
  lines : List String
deriving Repr, DecidableEq

/-- The zipper embedding of the doubly-linked list plus `screenTop` cursor and
`screenTopOffset`.  `nil` is the empty list (head = tail = screenTop = nil,
screenTopOffset = 0). -/
inductive RLZipper where
  | nil
  | cursor (before : List record) (top : record) (offset : Int) (after : List record)
deriving Repr, DecidableEq

/-- `bufferRecordList` (the revision with line counters). -/
structure bufferRecordList where
  zip : RLZipper
  linesAboveScreenTop : Int
  linesBelowScreenTop : Int
  linesTotal : Int
deriving Repr, DecidableEq

/-- `NewBufferRecordList()`. -/
def NewBufferRecordList : bufferRecordList :=
  { zip := .nil, linesAboveScreenTop := 0, linesBelowScreenTop := 0, linesTotal := 0 }

/-- The records of the list, in list order (head first). -/
def recordsOf (l : bufferRecordList) : List record :=
  match l.zip with
  | .nil => []
  | .cursor before top _ after => before.reverse ++ top :: after

/-- Total number of display lines spanned by a sequence of records. -/
def sumLines (rs : List record) : Int :=
  (rs.map (fun r => (r.lines.length : Int))).sum

/-- `Append` (buffer_record_list.go). -/
def Append (l : bufferRecordList) (r : record) : bufferRecordList :=
  let numLines : Int := r.lines.length
  match l.zip with
  | .nil =>
      -- list was empty: the new node becomes head, tail and screenTop.
      { zip := .cursor [] r 0 [],
        linesAboveScreenTop := l.linesAboveScreenTop,
        linesBelowScreenTop := l.linesBelowScreenTop + numLines,
        linesTotal := l.linesTotal + numLines }
  | .cursor before top offset after =>
      { zip := .cursor before top offset (after ++ [r]),
        linesAboveScreenTop := l.linesAboveScreenTop,
        linesBelowScreenTop := l.linesBelowScreenTop + numLines,
        linesTotal := l.linesTotal + numLines }

/-- `Prepend` (buffer_record_list.go). -/
def Prepend (l : bufferRecordList) (r : record) : bufferRecordList :=
  let numLines : Int := r.lines.length
  match l.zip with
  | .nil =>
      { zip := .cursor [] r 0 [],
        linesAboveScreenTop := l.linesAboveScreenTop,
        linesBelowScreenTop := l.linesBelowScreenTop + numLines,
        linesTotal := l.linesTotal + numLines }
  | .cursor before top offset after =>
      { zip := .cursor (before ++ [r]) top offset after,
        linesAboveScreenTop := l.linesAboveScreenTop + numLines,
        linesBelowScreenTop := l.linesBelowScreenTop,
        linesTotal := l.linesTotal + numLines }

/-- `PopFirst` (buffer_record_list.go).  Returns the removed record (or `none`
when the list is empty, leaving the state untouched) together with the new
state.  In the zipper, `head` is `before.getLast?` when `before` is nonempty,
otherwise `top` itself (in which case `screenTop == head`). -/
def PopFirst (l : bufferRecordList) : Option record × bufferRecordList :=
  match l.zip with
  | .nil => (none, l)
  | .cursor before top offset after =>
    match before.getLast? with
    | some headRec =>
        -- head is not the screenTop; next != nil because top follows it.
        (some headRec,
         { zip := .cursor before.dropLast top offset after,
           linesAboveScreenTop := l.linesAboveScreenTop - headRec.lines.length,
           linesBelowScreenTop := l.linesBelowScreenTop,
           linesTotal := l.linesTotal - headRec.lines.length })
    | none =>
        -- before = []: head is the screenTop node.
        match after with
        | [] =>
            -- next == nil: list becomes empty.
            (some top,
             { zip := .nil, linesAboveScreenTop := 0, linesBelowScreenTop := 0,
               linesTotal := l.linesTotal - top.lines.length })
        | nxt :: rest =>
            (some top,
             { zip := .cursor [] nxt 0 rest,
               linesAboveScreenTop := l.linesAboveScreenTop - offset,
               linesBelowScreenTop := l.linesBelowScreenTop,
               linesTotal := l.linesTotal - top.lines.length })

/-- `PopLast` (buffer_record_list.go). -/
def PopLast (l : bufferRecordList) : Option record × bufferRecordList :=
  match l.zip with
  | .nil => (none, l)
  | .cursor before top offset after =>
    match after.getLast? with
    | some tailRec =>
        (some tailRec,
         { zip := .cursor before top offset after.dropLast,
           linesAboveScreenTop := l.linesAboveScreenTop,
           linesBelowScreenTop := l.linesBelowScreenTop - tailRec.lines.length,
           linesTotal := l.linesTotal - tailRec.lines.length })
    | none =>
        -- after = []: tail is the screenTop node.
        match before with
        | [] =>
            (some top,
             { zip := .nil, linesAboveScreenTop := 0, linesBelowScreenTop := 0,
               linesTotal := l.linesTotal - top.lines.length })
        | prev :: rest =>
            (some top,
             { zip := .cursor rest prev 0 [],
               linesAboveScreenTop := l.linesAboveScreenTop,
               linesBelowScreenTop :=
                 l.linesBelowScreenTop - (top.lines.length - offset),
               linesTotal := l.linesTotal - top.lines.length })

/-- `Clear` (buffer_record_list.go). -/
def Clear (_l : bufferRecordList) : bufferRecordList := NewBufferRecordList

/-- The loop body of `ScrollUp` (buffer_record_list.go).  The Go loop walks the
`prev` pointers with `nextScreenTop` while mutating `l.screenTopOffset`; here
the walk is the zipper rotation `(prev :: rest, top, after) ↦
(rest, prev, top :: after)`, and `offset`, `lines`, `linesMoved` are the loop
variables. -/
def scrollUpLoop (before : List record) (top : record) (after : List record)
    (offset lines moved : Int) :
    List record × record × List record × Int × Int :=
  if offset ≥ lines then
    (before, top, after, offset - lines, moved + lines)
  else
    -- consume the lines above the current offset within this record
    let lines' := if offset > 0 then lines - offset else lines
    let moved' := if offset > 0 then moved + offset else moved
    let offset' := if offset > 0 then 0 else offset
    match before with
    | [] => ([], top, after, offset', moved')
    | prev :: rest =>
        scrollUpLoop rest prev (top :: after)
          ((prev.lines.length : Int) - 1) (lines' - 1) (moved' + 1)

/-- `ScrollUp` (buffer_record_list.go).  Returns `(linesMoved, new state)`. -/
def ScrollUp (l : bufferRecordList) (lines : Int) : Int × bufferRecordList :=
  match l.zip with
  | .nil => (0, l)
  | .cursor before top offset after =>
      let (b, t, a, off, moved) := scrollUpLoop before top after offset lines 0
      (moved,
       { zip := .cursor b t off a,
         linesAboveScreenTop := l.linesAboveScreenTop - moved,
         linesBelowScreenTop := l.linesBelowScreenTop + moved,
         linesTotal := l.linesTotal })

/-- The loop body of `ScrollDown` (buffer_record_list.go). -/
def scrollDownLoop (before : List record) (top : record) (after : List record)
    (offset lines moved : Int) :
    List record × record × List record × Int × Int :=
  let linesLeftInRecord : Int := (top.lines.length : Int) - offset - 1
  if linesLeftInRecord ≥ lines then
    (before, top, after, offset + lines, moved + lines)
  else
    let lines' := if linesLeftInRecord > 0 then lines - linesLeftInRecord else lines
    let moved' := if linesLeftInRecord > 0 then moved + linesLeftInRecord else moved
    let offset' := if linesLeftInRecord > 0 then offset + linesLeftInRecord else offset
    match after with
    | [] => (before, top, [], offset', moved')
    | nxt :: rest =>
        scrollDownLoop (top :: before) nxt rest 0 (lines' - 1) (moved' + 1)

/-- `ScrollDown` (buffer_record_list.go).  Returns `(linesMoved, new state)`. -/
def ScrollDown (l : bufferRecordList) (lines : Int) : Int × bufferRecordList :=
  match l.zip with
  | .nil => (0, l)
  | .cursor before top offset after =>
      let (b, t, a, off, moved) := scrollDownLoop before top after offset lines 0
      (moved,
       { zip := .cursor b t off a,
         linesAboveScreenTop := l.linesAboveScreenTop + moved,
         linesBelowScreenTop := l.linesBelowScreenTop - moved,
         linesTotal := l.linesTotal })

/-- `CalcScreenLines` (buffer_record_list.go). -/
def CalcScreenLines (l : bufferRecordList) (screenHeight : Int) :
    Int × Int × Int :=
  let aboveScreen := l.linesAboveScreenTop
  if l.linesBelowScreenTop ≤ screenHeight then
    (aboveScreen, l.linesBelowScreenTop, 0)
  else
    (aboveScreen, screenHeight, l.linesBelowScreenTop - screenHeight)

/-- The loop of `GetLinesToRender` (buffer_record_list.go, the revision used by
the coordinator): walk from `screenTop` onward, taking whole records until the
requested count is reached.  `r.lines[offset:offset+lineCount]` is
`(r.lines.drop offset).take lineCount` and `r.lines[offset:]` is
`r.lines.drop offset`.  The Go accumulator `result` is the returned list. -/
def getLinesLoop : List record → Int → Int → List String
  | [], _, _ => []
  | r :: rest, offset, lineCount =>
      let takeLines : Int := (r.lines.length : Int) - offset
      if takeLines ≥ lineCount then
        (r.lines.drop offset.toNat).take lineCount.toNat
      else
        (r.lines.drop offset.toNat) ++ getLinesLoop rest 0 (lineCount - takeLines)

/-- `GetLinesToRender` (buffer_record_list.go). -/
def GetLinesToRender (l : bufferRecordList) (lineCount : Int) : List String :=
  match l.zip with
  | .nil => []
  | .cursor _ top offset after => getLinesLoop (top :: after) offset lineCount

/-- The coordinator configuration fields of `Buffer` (buffer.go) that
`calcLinesToReadUsingAvailableLines` reads. -/
structure BufferCfg where
  height : Int
  followMode : Bool
  fwdEager : Int
  bkdEager : Int
deriving Repr, DecidableEq

/-- `calcLinesToReadUsingAvailableLines` (buffer.go): the eagerness targets
`(bkdLines, fwdLines)` computed from the available lines above, on and below
the screen. -/
def calcLinesToReadUsingAvailableLines (b : BufferCfg)
    (aboveScreen onScreen belowScreen : Int) : Int × Int :=
  let bkdLines := max (b.bkdEager - aboveScreen) (b.height - onScreen)
  let fwdLines :=
    if b.followMode then
      -- in follow mode the forward producer always reads more
      0
    else
      b.height - onScreen + max (b.fwdEager - belowScreen) 0
  (bkdLines, fwdLines)

/-- The display lines visible from the cursor onward: the remaining lines of
`screenTop` from `screenTopOffset`, then the lines of all following records. -/
def forwardView (l : bufferRecordList) : List String :=
  match l.zip with
  | .nil => []
  | .cursor _ top off after => top.lines.drop off.toNat ++ after.flatMap (fun r => r.lines)

/-- The forward flattening of a suffix of records, the first taken from
display-line `offset`. -/
def flattenFrom (recs : List record) (offset : Int) : List String :=
  match recs with
  | [] => []
  | r :: rest => r.lines.drop offset.toNat ++ rest.flatMap (fun r => r.lines)

/-- A concrete record list used in witnesses: records of 2, 3 and 1 display
lines (the specification's scenario 5), cursor at the first record, offset 0. -/
def sampleList : bufferRecordList :=
  { zip := .cursor [] ⟨["a","b"]⟩ 0 [⟨["c","d","e"]⟩, ⟨["f"]⟩],
    linesAboveScreenTop := 0, linesBelowScreenTop := 6, linesTotal := 6 }

/-- The scenario-5 list after scrolling down 4 lines: cursor at the second
record, offset 2. -/
def sampleListMid : bufferRecordList :=
  { zip := .cursor [⟨["a","b"]⟩] ⟨["c","d","e"]⟩ 2 [⟨["f"]⟩],
    linesAboveScreenTop := 4, linesBelowScreenTop := 2, linesTotal := 6 }

/-! ### Record-list invariants -/

/-- The cursor-offset invariant: on a non-empty list,
`0 ≤ screenTopOffset < len(screenTop.lines)`. -/
def offsetInv : RLZipper → Prop
  | .nil => True
  | .cursor _ top off _ => 0 ≤ off ∧ off < (top.lines.length : Int)

/-- The record-list invariants of the specification: `linesTotal` is the sum of
all records' display-line counts, `linesAboveScreenTop + linesBelowScreenTop =
linesTotal`, and the cursor offset is in range. -/
def RLInv (l : bufferRecordList) : Prop :=
  l.linesTotal = sumLines (recordsOf l) ∧
  l.linesAboveScreenTop + l.linesBelowScreenTop = l.linesTotal ∧
  offsetInv l.zip

instance (z : RLZipper) : Decidable (offsetInv z) := by
  cases z <;> simp [offsetInv] <;> infer_instance

instance (l : bufferRecordList) : Decidable (RLInv l) := by
  unfold RLInv; infer_instance

/-! ### Byte streams and the reverse byte reader -/

/-- The error kinds of the Go code (`io` package errors, the scanner's own
errors, and a Go `panic` modelled as an error value). -/
inductive GoErr where
  | eof            -- io.EOF
  | unexpectedEof  -- io.ErrUnexpectedEOF
  | noProgress     -- io.ErrNoProgress
  | shortBuffer    -- io.ErrShortBuffer
  | shortRead      -- the wrapped "expected to read %d bytes, but only read %d" error
  | useAfterClose  -- ErrUseAfterClose
  | panicked       -- a Go panic
deriving Repr, DecidableEq

/-- A seekable reader over fixed byte content (bytes are `Nat`, `'\n'` is 10);
`pos` is the seek position.  `caps` is a script of caps on how many bytes
successive `Read` calls deliver — it models short reads; each `Read` consumes
one entry, and an empty script means reads deliver all that is available. -/
structure ReaderModel where
  content : List Nat
  pos : Int
  caps : List Nat
deriving Repr, DecidableEq

/-- One `Read` call requesting `k` bytes: delivers at most `k`, at most the
script cap, and at most what remains at `pos`; a read at or past the end of
the content reports `io.EOF`. -/
def readerRead (r : ReaderModel) (k : Nat) : ReaderModel × List Nat × Option GoErr :=
  let caps' := r.caps.tail
  let limit := match r.caps.head? with
    | none => k
    | some c => min c k
  if k = 0 then ({ r with caps := caps' }, [], none)
  else if r.pos ≥ (r.content.length : Int) then
    ({ r with caps := caps' }, [], some .eof)
  else
    let n := min limit (r.content.length - r.pos.toNat)
    ({ r with pos := r.pos + n, caps := caps' },
     (r.content.drop r.pos.toNat).take n, none)

/-- `BackwardsReadResult` (read_backwards.go). -/
structure BackwardsReadResult where
  N : Nat
  NextPos : Int
  Seeked : Bool
  LeftToRead : Int
deriving Repr, DecidableEq

/-- `ReadBackwardsFrom` (read_backwards.go).  Returns the reader after the
operation, the bytes read (which the Go code stores into `buf[0:n]`), the
result struct, and the error.  A negative `fromPos` makes the Go code panic,
modelled by the `.panicked` error. -/
def ReadBackwardsFrom (r : ReaderModel) (fromPos : Int) (bufLen : Nat) :
    ReaderModel × List Nat × BackwardsReadResult × Option GoErr :=
  if fromPos < 0 then (r, [], ⟨0, -1, false, -1⟩, some .panicked)
  else
    let requested := bufLen
    if fromPos = 0 ∨ requested = 0 then
      -- trivial read: no seek and no read is performed
      (r, [], ⟨0, fromPos, false, -1⟩, none)
    else
      let leftToRead : Nat :=
        if fromPos < (requested : Int) then fromPos.toNat else requested
      let nextPos := fromPos - leftToRead
      -- reader.Seek(nextPos, io.SeekStart): seeking a file to a non-negative
      -- position succeeds
      let r1 := { r with pos := nextPos }
      let (r2, data, err) := readerRead r1 leftToRead
      (r2, data, ⟨data.length, nextPos, true, (leftToRead : Int) - data.length⟩, err)

/-! ### The forwards line scanner -/

/-- The observable state of `ForwardsLineScanner` (forwards_line_scanner.go):
the read offset of the underlying reader, the `token` slice (`Option`
distinguishes Go's nil slice from an empty one) and the `isCarryOver` flag.
The wrapped `bufio.Scanner` reduces to the read offset because the Go code
re-initialises it exactly at the points where its internal buffer is empty
(soft EOF with no data, or after the at-EOF final token). -/
structure ForwardsLineScanner where
  pos : Nat
  token : Option (List Nat)
  isCarryOver : Bool
deriving Repr, DecidableEq

/-- `NewForwardsLineScanner`, for a reader currently positioned at `pos`. -/
def NewForwardsLineScanner (pos : Nat) : ForwardsLineScanner :=
  { pos := pos, token := some [], isCarryOver := false }

/-- Index of the first `'\n'` in a byte list. -/
def firstNlIdx : List Nat → Option Nat
  | [] => none
  | b :: rest => if b == 10 then some 0 else (firstNlIdx rest).map (· + 1)

/-- One `Scan` of the wrapped `bufio.Scanner` with the custom `scanLines` split
function: a token is everything up to and including the next `'\n'`; at EOF
the final non-terminated data is returned as a token; at EOF with no data the
scan reports false (with no error, as the file is well-behaved).  Returns
`(ok, token bytes, new read offset)` against the current file `content`. -/
def internalScan (content : List Nat) (pos : Nat) : Bool × List Nat × Nat :=
  match firstNlIdx (content.drop pos) with
  | some i => (true, (content.drop pos).take (i + 1), pos + i + 1)
  | none =>
      if pos < content.length then (true, content.drop pos, content.length)
      else (false, [], pos)

/-- `ForwardsLineScanner.Scan` (forwards_line_scanner.go).  `content` is the
file content at the time of the call (the file may have grown since the last
call). -/
def FwdScan (s : ForwardsLineScanner) (content : List Nat) :
    Bool × ForwardsLineScanner :=
  let (res, bs, newPos) := internalScan content s.pos
  -- make sure to reset our token if we're not carrying over
  let token0 := if s.isCarryOver then s.token else none
  if !res then
    -- EOF with no data and no error: re-initialise the internal scanner
    (false, { pos := newPos, token := token0, isCarryOver := s.isCarryOver })
  else if bs.length ≠ 0 then
    let token1 := if s.isCarryOver then some (token0.getD [] ++ bs) else some bs
    if bs.getLast? ≠ some 10 then
      -- partial token: buffer it and emulate bufio's false-at-EOF
      (false, { pos := newPos, token := token1, isCarryOver := true })
    else
      (true, { pos := newPos, token := some ((token1.getD []).dropLast),
               isCarryOver := false })
  else
    (true, { pos := newPos, token := token0, isCarryOver := s.isCarryOver })

/-- `ForwardsLineScanner.Bytes`: nil while a partial token is being carried. -/
def FwdBytes (s : ForwardsLineScanner) : Option (List Nat) :=
  if s.isCarryOver then none else s.token

/-- `ForwardsLineScanner.Text` (Go's `string(s.token)`; a nil slice gives ""). -/
def FwdText (s : ForwardsLineScanner) : List Nat :=
  if s.isCarryOver then [] else s.token.getD []

/-! ### The backwards line scanner -/

/-- `readChunk` (backwards_line_scanner.go): `buf` is the chunk buffer (of the
full chunk size, zero-padded past `len` for freshly read chunks) and `len` the
number of valid bytes. -/
structure readChunk where
  buf : List Nat
  len : Nat
deriving Repr, DecidableEq

/-- `BackwardsLineScanner` (backwards_line_scanner.go, the revision whose
`ReadLine` also returns the line's start position). -/
structure BackwardsLineScanner where
  reader : ReaderModel
  nextPos : Int
  chunkSize : Nat
  chunks : List readChunk
  nextNewLine : Int
  lastErr : Option GoErr
deriving Repr, DecidableEq

/-- `bytes.LastIndexByte(l, '\n')`: the index of the last 10, or −1. -/
def lastIdxNl : List Nat → Int
  | [] => -1
  | b :: rest =>
      let r := lastIdxNl rest
      if r ≥ 0 then r + 1 else if b == 10 then 0 else -1

/-- Go's `copy(buf[start:start+data.length], data)` on a list buffer. -/
def listWrite (buf : List Nat) (start : Nat) (data : List Nat) : List Nat :=
  buf.take start ++ data ++ buf.drop (start + data.length)

/-- The partial-read retry loop inside `readMore` (backwards_line_scanner.go):
keep issuing `Read` calls for the bytes still missing; give up with
`io.ErrNoProgress` after 10 consecutive empty reads, and with
`io.ErrShortBuffer` if a misbehaving reader overfills.  Returns the reader,
the buffer, the total bytes read, the remaining count and the error. -/
def retryRead (r : ReaderModel) (buf : List Nat) (n : Nat) (leftToRead : Int)
    (emptyReads : Nat) : ReaderModel × List Nat × Nat × Int × Option GoErr :=
  if _h0 : leftToRead ≤ 0 then (r, buf, n, leftToRead, none)
  else
    match readerRead r leftToRead.toNat with
    | (r', data, err) =>
      let nPart := data.length
      let buf' := listWrite buf n data
      let n' := n + nPart
      let left' := leftToRead - nPart
      if err.isSome then (r', buf', n', left', err)
      else if h1 : left' < 0 then (r', buf', n', left', some .shortBuffer)
      else if h2 : nPart = 0 then
        if emptyReads + 1 ≥ 10 then (r', buf', n', left', some .noProgress)
        else retryRead r' buf' n' left' (emptyReads + 1)
      else retryRead r' buf' n' left' 0
termination_by leftToRead.toNat * 11 + (10 - emptyReads)
decreasing_by
  · omega
  · omega

/-- `readMore` (backwards_line_scanner.go): load one more chunk backwards via
`ReadBackwardsFrom`, retry partial reads, append the chunk, and classify the
outcome (`io.ErrUnexpectedEOF` if the file shrank, `io.EOF` at the start of
the file, a wrapped short-read error if bytes are still missing). -/
def readMore (s : BackwardsLineScanner) : BackwardsLineScanner × Nat × Option GoErr :=
  match s.lastErr with
  | some e => (s, 0, some e)
  | none =>
    let buf0 := List.replicate s.chunkSize 0
    let out := ReadBackwardsFrom s.reader s.nextPos s.chunkSize
    let r1 := out.1
    let data := out.2.1
    let result := out.2.2.1
    let err0 := out.2.2.2
    let buf1 := listWrite buf0 0 data
    let after :=
      if result.LeftToRead > 0 then retryRead r1 buf1 result.N result.LeftToRead 0
      else (r1, buf1, result.N, result.LeftToRead, err0)
    let s1 := { s with reader := after.1, nextPos := result.NextPos,
                       chunks := s.chunks ++ [⟨after.2.1, after.2.2.1⟩] }
    if after.2.2.2.2 = some .eof then (s1, after.2.2.1, some .unexpectedEof)
    else if s1.nextPos = 0 then (s1, after.2.2.1, some .eof)
    else if after.2.2.2.1 > 0 then (s1, after.2.2.1, some .shortRead)
    else (s1, after.2.2.1, after.2.2.2.2)

/-- `BackwardsLineScanner.ReadLine` (backwards_line_scanner.go), with explicit
fuel for the `return s.ReadLine()` recursion (the Go code can loop forever on
a degenerate chunk size 0, so the recursion is not structurally terminating);
`none` means the fuel ran out.  Returns `(line bytes (none for Go's nil),
line start position, error, new state)`. -/
def ReadLine : Nat → BackwardsLineScanner →
    Option (Option (List Nat) × Int × Option GoErr × BackwardsLineScanner)
  | 0, _ => none
  | fuel + 1, s =>
    if s.lastErr = some .useAfterClose then some (none, -1, some .useAfterClose, s)
    else
      let step :=
        if s.nextNewLine = -1 then
          match readMore s with
          | (s', _, some e) => ({ s' with lastErr := some e }, some e)
          | (s', _, none) => (s', none)
        else (s, none)
      let s1 := step.1
      let err := step.2
      if err ≠ none ∧ err ≠ some .eof then some (none, -1, err, s1)
      else
        match s1.chunks.getLast? with
        | none => some (some [], 0, some .eof, s1)
        | some curChunk =>
          let nlIdx : Int :=
            if s1.nextNewLine = -1 then lastIdxNl curChunk.buf else s1.nextNewLine
          if nlIdx ≠ -1 ∨ err = some .eof then
            -- construct the line from the chunks: the tail of the newest
            -- (earliest-in-file) chunk, then the earlier-loaded chunks in
            -- reverse load order (= file order)
            let restChunks := s1.chunks.dropLast
            let line := ((curChunk.buf.take curChunk.len).drop (nlIdx + 1).toNat)
              ++ (restChunks.reverse.flatMap fun c => c.buf.take c.len)
            let s3 :=
              if nlIdx ≠ -1 then
                let remainingChunk : readChunk :=
                  if nlIdx > 0 then ⟨curChunk.buf.take nlIdx.toNat, nlIdx.toNat⟩
                  else ⟨[], 0⟩
                { s1 with chunks := [remainingChunk],
                          nextNewLine := lastIdxNl remainingChunk.buf }
              else { s1 with chunks := [], nextNewLine := -1 }
            let errOut := if nlIdx ≠ -1 ∧ err = some .eof then none else err
            some (some line, s3.nextPos + nlIdx + 1, errOut, s3)
          else
            ReadLine fuel s1

/-- `NewBackwardsLineScanner(reader, chunkSize)` over a file containing
`content`, with the default `(0, io.SeekEnd)` start: `nextPos` is the file
length. -/
def NewBackwardsLineScanner (content : List Nat) (chunkSize : Nat) :
    BackwardsLineScanner :=
  { reader := ⟨content, content.length, []⟩, nextPos := content.length,
    chunkSize := chunkSize, chunks := [], nextNewLine := -1, lastErr := none }

/-- Drive `ReadLine` to exhaustion: collect `(bytes, position)` pairs of the
returned lines, stopping after (and including) the line delivered with
`io.EOF`; `none` if the fuel runs out or a hard error occurs. -/
def collectBackward (innerFuel : Nat) :
    Nat → BackwardsLineScanner → Option (List (List Nat × Int))
  | 0, _ => none
  | n + 1, s =>
    match ReadLine innerFuel s with
    | none => none
    | some (bs, pos, err, s') =>
      match err with
      | none =>
          match collectBackward innerFuel n s' with
          | none => none
          | some rest => some ((bs.getD [], pos) :: rest)
      | some .eof => some [(bs.getD [], pos)]
      | some _ => none

/-- The line sequence of a whole-file backward scan (bytes only). -/
def backwardLines (content : List Nat) (chunkSize : Nat) : Option (List (List Nat)) :=
  (collectBackward (content.length + 2) (content.length + 2)
    (NewBackwardsLineScanner content chunkSize)).map (fun l => l.map (fun p => p.1))

/-- Drive `FwdScan` until it reports false, collecting the emitted line texts. -/
def collectForward : Nat → ForwardsLineScanner → List Nat → List (List Nat)
  | 0, _, _ => []
  | n + 1, s, content =>
      let out := FwdScan s content
      if out.1 then FwdText out.2 :: collectForward n out.2 content else []

/-- The line sequence of a whole-file forward scan from the start. -/
def forwardLines (content : List Nat) : List (List Nat) :=
  collectForward (content.length + 1) (NewForwardsLineScanner 0) content

/-- The newline-separated segments of a byte list, in file order, keeping the
(possibly empty) trailing segment after the last newline.  `segsFwd` of the
empty list is `[[]]`. -/
def segsFwd : List Nat → List (List Nat)
  | [] => [[]]
  | b :: rest =>
      match segsFwd rest with
      | [] => [[]]
      | h :: t => if b == 10 then [] :: h :: t else (b :: h) :: t

/-- Bytes of a string (for concrete test contents). -/
def strBytes (s : String) : List Nat := s.data.map (fun c => c.toNat)

/-- The terminal shape the backwards scanner ends in once it has delivered the
line reaching byte 0: no chunks are left and either a cached newline index
makes `ReadLine` skip `readMore` (unreachable in practice) or the stored
`io.EOF` makes `readMore` return immediately; in both cases `ReadLine`
answers `([], 0, io.EOF)` forever without changing the state. -/
def eofSticky (s : BackwardsLineScanner) : Prop :=
  s.chunks = [] ∧ (s.nextNewLine ≠ -1 ∨ s.lastErr = some .eof) ∧
  s.lastErr ≠ some .useAfterClose

instance (s : BackwardsLineScanner) : Decidable (eofSticky s) := by
  unfold eofSticky; infer_instance

/-- No newline byte occurs in the list. -/
def noNl (l : List Nat) : Prop := ∀ b ∈ l, b ≠ 10

/-- The valid data bytes of a chunk (`buf[:len]`). -/
def chunkData (c : readChunk) : List Nat := c.buf.take c.len

/-- A chunk as produced by `readMore`: `len` valid bytes followed by padding
that contains no newline (the padding is the zero remainder of the freshly
allocated buffer). -/
def chunkPadded (c : readChunk) : Prop :=
  c.len ≤ c.buf.length ∧ noNl (c.buf.drop c.len)

/-- The scanner state in the middle of the `readMore` loop of a single
`ReadLine` call: the loaded chunks exactly cover `content[nextPos:cut)` in
reverse load order, none of them contains a newline, no newline index is
cached, and no error is stored.  `cut` is the absolute end of the not yet
returned prefix of the file. -/
def BkwSweep (content : List Nat) (cut : Nat) (s : BackwardsLineScanner) : Prop :=
  s.reader.content = content ∧ s.reader.caps = [] ∧ 1 ≤ s.chunkSize ∧
  cut ≤ content.length ∧
  ∃ np : Nat, s.nextPos = (np : Int) ∧ np ≤ cut ∧
    s.chunks.reverse.flatMap chunkData = (content.drop np).take (cut - np) ∧
    (∀ c ∈ s.chunks, chunkPadded c) ∧
    (∀ c ∈ s.chunks, noNl (chunkData c)) ∧
    s.nextNewLine = -1 ∧ s.lastErr = none

/-- The scanner state between two `ReadLine` calls, when the prefix
`content[0:cut)` of the file has not been returned yet: either nothing is
loaded (the initial state), or exactly the residual chunk before the last
returned line's newline is retained, with its newline index cached. -/
def BkwBetween (content : List Nat) (cut : Nat) (s : BackwardsLineScanner) : Prop :=
  s.reader.content = content ∧ s.reader.caps = [] ∧ 1 ≤ s.chunkSize ∧
  cut ≤ content.length ∧
  ((s.chunks = [] ∧ s.nextNewLine = -1 ∧ s.lastErr = none ∧ s.nextPos = (cut : Int)) ∨
   (∃ (c : readChunk) (np : Nat), s.chunks = [c] ∧ s.nextPos = (np : Int) ∧ np ≤ cut ∧
     c.buf = (content.drop np).take (cut - np) ∧ c.len = cut - np ∧
     c.buf.length = cut - np ∧
     s.nextNewLine = lastIdxNl c.buf ∧
     (s.lastErr = none ∨ (s.lastErr = some .eof ∧ np = 0))))

/-- The trailing segment of a file: the text after the last newline (the whole
content if there is none; empty if the file ends in a newline or is empty). -/
def trailingSeg (content : List Nat) : List Nat := (segsFwd content).getLastD []

/-- The `(line, position, error)` triple a `ReadLine` call delivers when the
not yet returned prefix of the file is `content[0:cut)`: the text after the
last newline of that prefix (the whole prefix, with `io.EOF`, if it has no
newline). -/
def sweepLine (content : List Nat) (cut : Nat) :
    Option (List Nat) × Int × Option GoErr :=
  if lastIdxNl (content.take cut) = -1 then
    (some (content.take cut), 0, some GoErr.eof)
  else
    (some ((content.take cut).drop ((lastIdxNl (content.take cut)).toNat + 1)),
     lastIdxNl (content.take cut) + 1, none)

/-- The state such a `ReadLine` call leaves behind: terminal (`eofSticky`) if
the prefix had no newline, otherwise a between-calls state for the shortened
prefix ending at that newline. -/
def sweepPost (content : List Nat) (cut : Nat) (s' : BackwardsLineScanner) : Prop :=
  if lastIdxNl (content.take cut) = -1 then eofSticky s'
  else BkwBetween content (lastIdxNl (content.take cut)).toNat s'

/-! ### Scroll loop lemmas -/

theorem scrollUpLoop_spec (before : List record) :
    ∀ (top : record) (after : List record) (offset lines moved : Int)
      (b' : List record) (t' : record) (a' : List record) (off' m' : Int),
    scrollUpLoop before top after offset lines moved = (b', t', a', off', m') →
    0 ≤ offset → offset < (top.lines.length : Int) → 0 ≤ lines →
    (∀ r ∈ before, 1 ≤ r.lines.length) →
    b'.reverse ++ t' :: a' = before.reverse ++ top :: after ∧
    moved ≤ m' ∧ m' ≤ moved + lines ∧
    0 ≤ off' ∧ off' < (t'.lines.length : Int) := by
  induction before with
  | nil =>
      intro top after offset lines moved b' t' a' off' m' h h0 h1 h2 _
      rw [scrollUpLoop] at h
      by_cases hge : offset ≥ lines
      · rw [if_pos hge] at h
        obtain ⟨rfl, rfl, rfl, rfl, rfl⟩ := Prod.mk.injEq .. ▸ (by
          simpa using h.symm : _ ∧ _ ∧ _ ∧ _ ∧ _)
        refine ⟨rfl, by omega, by omega, by omega, by omega⟩
      · rw [if_neg hge] at h
        simp only at h
        obtain ⟨rfl, rfl, rfl, rfl, rfl⟩ := Prod.mk.injEq .. ▸ (by
          simpa using h.symm : _ ∧ _ ∧ _ ∧ _ ∧ _)
        refine ⟨rfl, ?_, ?_, ?_, ?_⟩ <;> split_ifs <;> omega
  | cons prev rest ih =>
      intro top after offset lines moved b' t' a' off' m' h h0 h1 h2 hne
      rw [scrollUpLoop] at h
      by_cases hge : offset ≥ lines
      · rw [if_pos hge] at h
        obtain ⟨rfl, rfl, rfl, rfl, rfl⟩ := Prod.mk.injEq .. ▸ (by
          simpa using h.symm : _ ∧ _ ∧ _ ∧ _ ∧ _)
        refine ⟨rfl, by omega, by omega, by omega, by omega⟩
      · rw [if_neg hge] at h
        simp only at h
        have hprev : 1 ≤ prev.lines.length := hne prev (by simp)
        have := ih prev (top :: after)
          ((prev.lines.length : Int) - 1)
          ((if offset > 0 then lines - offset else lines) - 1)
          ((if offset > 0 then moved + offset else moved) + 1)
          b' t' a' off' m' h (by omega) (by omega)
          (by split_ifs <;> omega)
          (fun r hr => hne r (by simp [hr]))
        obtain ⟨hlist, hm1, hm2, ho1, ho2⟩ := this
        refine ⟨?_, ?_, ?_, ho1, ho2⟩
        · rw [hlist]; simp
        · split_ifs at hm1 <;> omega
        · split_ifs at hm2 <;> omega

theorem scrollDownLoop_spec (after : List record) :
    ∀ (top : record) (before : List record) (offset lines moved : Int)
      (b' : List record) (t' : record) (a' : List record) (off' m' : Int),
    scrollDownLoop before top after offset lines moved = (b', t', a', off', m') →
    0 ≤ offset → offset < (top.lines.length : Int) → 0 ≤ lines →
    (∀ r ∈ after, 1 ≤ r.lines.length) →
    b'.reverse ++ t' :: a' = before.reverse ++ top :: after ∧
    moved ≤ m' ∧ m' ≤ moved + lines ∧
    0 ≤ off' ∧ off' < (t'.lines.length : Int) := by
  induction after with
  | nil =>
      intro top before offset lines moved b' t' a' off' m' h h0 h1 h2 _
      rw [scrollDownLoop] at h
      by_cases hge : (top.lines.length : Int) - offset - 1 ≥ lines
      · rw [if_pos hge] at h
        obtain ⟨rfl, rfl, rfl, rfl, rfl⟩ := Prod.mk.injEq .. ▸ (by
          simpa using h.symm : _ ∧ _ ∧ _ ∧ _ ∧ _)
        refine ⟨rfl, by omega, by omega, by omega, by omega⟩
      · rw [if_neg hge] at h
        simp only at h
        obtain ⟨rfl, rfl, rfl, rfl, rfl⟩ := Prod.mk.injEq .. ▸ (by
          simpa using h.symm : _ ∧ _ ∧ _ ∧ _ ∧ _)
        refine ⟨rfl, ?_, ?_, ?_, ?_⟩ <;> split_ifs <;> omega
  | cons nxt rest ih =>
      intro top before offset lines moved b' t' a' off' m' h h0 h1 h2 hne
      rw [scrollDownLoop] at h
      by_cases hge : (top.lines.length : Int) - offset - 1 ≥ lines
      · rw [if_pos hge] at h
        obtain ⟨rfl, rfl, rfl, rfl, rfl⟩ := Prod.mk.injEq .. ▸ (by
          simpa using h.symm : _ ∧ _ ∧ _ ∧ _ ∧ _)
        refine ⟨rfl, by omega, by omega, by omega, by omega⟩
      · rw [if_neg hge] at h
        simp only at h
        have hnxt : 1 ≤ nxt.lines.length := hne nxt (by simp)
        have := ih nxt (top :: before) 0
          ((if (top.lines.length : Int) - offset - 1 > 0 then
              lines - ((top.lines.length : Int) - offset - 1) else lines) - 1)
          ((if (top.lines.length : Int) - offset - 1 > 0 then
              moved + ((top.lines.length : Int) - offset - 1) else moved) + 1)
          b' t' a' off' m' h (by omega) (by omega)
          (by split_ifs <;> omega)
          (fun r hr => hne r (by simp [hr]))
        obtain ⟨hlist, hm1, hm2, ho1, ho2⟩ := this
        refine ⟨?_, ?_, ?_, ho1, ho2⟩
        · rw [hlist]; simp
        · split_ifs at hm1 <;> omega
        · split_ifs at hm2 <;> omega

/-! ### Claims about the record list and the eagerness policy -/

/-- C2.  For every `bufferRecordList` and every `k ≥ 0`, `ScrollUp k` and
`ScrollDown k` return a non-negative `moved ≤ k`, and afterwards the
non-empty-list invariants still hold: `linesTotal = Σ len(r.lines)`,
`linesAboveScreenTop + linesBelowScreenTop = linesTotal`, and
`0 ≤ screenTopOffset < len(screenTop.lines)`.  (The invariants are assumed to
hold before the scroll, and every record has at least one display line, as
`WordWrap` guarantees.) -/
theorem scroll_bounds_and_invariants (l : bufferRecordList) (k : Int)
    (hk : 0 ≤ k) (hinv : RLInv l)
    (hne : ∀ r ∈ recordsOf l, 1 ≤ r.lines.length) :
    0 ≤ (ScrollUp l k).1 ∧ (ScrollUp l k).1 ≤ k ∧ RLInv (ScrollUp l k).2 ∧
    0 ≤ (ScrollDown l k).1 ∧ (ScrollDown l k).1 ≤ k ∧ RLInv (ScrollDown l k).2 := by
  obtain ⟨zip, above, below, total⟩ := l
  obtain ⟨htot, hsum, hoff⟩ := hinv
  cases zip with
  | nil =>
      refine ⟨le_refl 0, hk, ⟨htot, hsum, trivial⟩, le_refl 0, hk, ⟨htot, hsum, trivial⟩⟩
  | cursor before top offset after =>
      obtain ⟨hoff0, hoff1⟩ := hoff
      have hsum' : above + below = total := hsum
      have htot' : total = sumLines (before.reverse ++ top :: after) := htot
      have hneb : ∀ r ∈ before, 1 ≤ r.lines.length := by
        intro r hr
        exact hne r (by simp [recordsOf, hr])
      have hnea : ∀ r ∈ after, 1 ≤ r.lines.length := by
        intro r hr
        exact hne r (by simp [recordsOf, hr])
      obtain ⟨⟨bu, tu, au, offu, mu⟩, hequ⟩ :
          ∃ out, scrollUpLoop before top after offset k 0 = out := ⟨_, rfl⟩
      obtain ⟨hlistu, hmu1, hmu2, hou1, hou2⟩ :=
        scrollUpLoop_spec before top after offset k 0 bu tu au offu mu
          hequ hoff0 hoff1 hk hneb
      obtain ⟨⟨bd, td, ad, offd, md⟩, heqd⟩ :
          ∃ out, scrollDownLoop before top after offset k 0 = out := ⟨_, rfl⟩
      obtain ⟨hlistd, hmd1, hmd2, hod1, hod2⟩ :=
        scrollDownLoop_spec after top before offset k 0 bd td ad offd md
          heqd hoff0 hoff1 hk hnea
      simp only [ScrollUp, ScrollDown, hequ, heqd, RLInv, recordsOf, offsetInv]
      refine ⟨by omega, by omega, ⟨?_, by omega, hou1, hou2⟩,
              by omega, by omega, ⟨?_, by omega, hod1, hod2⟩⟩
      · exact htot'.trans (congrArg sumLines hlistu.symm)
      · exact htot'.trans (congrArg sumLines hlistd.symm)

/-- Witness for `scroll_bounds_and_invariants` at the concrete list from the
specification's scenario 5 (records of 2, 3 and 1 display lines) and `k = 4`. -/
theorem scroll_bounds_and_invariants_witness :
    (0 ≤ (4:Int) ∧ RLInv sampleList ∧
     ∀ r ∈ recordsOf sampleList, 1 ≤ r.lines.length) ∧
    (0 ≤ (ScrollUp sampleList 4).1 ∧ RLInv (ScrollDown sampleList 4).2) := by
  refine ⟨⟨by decide, by decide, by decide⟩, ?_⟩
  have h := scroll_bounds_and_invariants sampleList 4
    (by decide) (by decide) (by decide)
  exact ⟨h.1, h.2.2.2.2.2⟩

theorem getLinesLoop_take (recs : List record) :
    ∀ (offset count : Int), 0 ≤ count → 0 ≤ offset →
    (∀ r₀, recs.head? = some r₀ → offset ≤ (r₀.lines.length : Int)) →
    getLinesLoop recs offset count = (flattenFrom recs offset).take count.toNat := by
  induction recs with
  | nil => intro offset count _ _ _; simp [getLinesLoop, flattenFrom]
  | cons r rest ih =>
      intro offset count hc ho hhead
      have hor : offset ≤ (r.lines.length : Int) := hhead r rfl
      rw [getLinesLoop]
      by_cases hge : (r.lines.length : Int) - offset ≥ count
      · rw [if_pos hge]
        have hlen : count.toNat ≤ (r.lines.drop offset.toNat).length := by
          simp only [List.length_drop]; omega
        simp only [flattenFrom]
        rw [List.take_append_of_le_length hlen]
      · rw [if_neg hge]
        have hrec := ih 0 (count - ((r.lines.length : Int) - offset)) (by omega) le_rfl
          (fun r₀ _ => by positivity)
        have hflat : flattenFrom rest 0 = rest.flatMap (fun r => r.lines) := by
          cases rest <;> simp [flattenFrom]
        rw [hflat] at hrec
        have hdl : (r.lines.drop offset.toNat).length = r.lines.length - offset.toNat := by
          simp
        have h1 : (r.lines.drop offset.toNat).take count.toNat = r.lines.drop offset.toNat := by
          apply List.take_of_length_le; omega
        have hcnt : (count - ((r.lines.length : Int) - offset)).toNat =
            count.toNat - (r.lines.drop offset.toNat).length := by
          rw [hdl]; omega
        simp only [flattenFrom]
        rw [List.take_append_eq_append_take, h1, hrec, hcnt]

/-- C8.  For every list satisfying the cursor invariant and every `count ≥ 0`,
`GetLinesToRender count` returns exactly the first `count` display lines of the
forward view starting at display line `screenTopOffset` of `screenTop`;
consequently it returns at most `count` lines, and fewer than `count` only when
the tail of the list is exhausted (the result is then the entire remaining
view). -/
theorem getLinesToRender_spec (l : bufferRecordList) (count : Int)
    (hc : 0 ≤ count) (hoff : offsetInv l.zip) :
    GetLinesToRender l count = (forwardView l).take count.toNat ∧
    (GetLinesToRender l count).length ≤ count.toNat ∧
    ((GetLinesToRender l count).length < count.toNat →
      GetLinesToRender l count = forwardView l) := by
  have hmain : GetLinesToRender l count = (forwardView l).take count.toNat := by
    obtain ⟨zip, above, below, total⟩ := l
    cases zip with
    | nil => simp [GetLinesToRender, forwardView]
    | cursor before top offset after =>
        obtain ⟨h0, h1⟩ := hoff
        have := getLinesLoop_take (top :: after) offset count hc h0
          (fun r₀ hr₀ => by
            simp only [List.head?] at hr₀
            cases hr₀; omega)
        simpa [GetLinesToRender, forwardView, flattenFrom] using this
  refine ⟨hmain, ?_, ?_⟩
  · rw [hmain]; simp
  · intro hlt
    rw [hmain] at hlt ⊢
    simp only [List.length_take] at hlt
    apply List.take_of_length_le
    omega

/-- Witness for `getLinesToRender_spec`: the scenario-5 list, asking for 4
lines starting at the second record's offset 2 yields the 2 remaining lines. -/
theorem getLinesToRender_spec_witness :
    (0 ≤ (4:Int) ∧ offsetInv sampleListMid.zip) ∧
    GetLinesToRender sampleListMid 4 = ["e", "f"] := by
  refine ⟨⟨by decide, by decide⟩, ?_⟩
  have h := getLinesToRender_spec sampleListMid 4 (by decide) (by decide)
  rw [h.1]; rfl

/-- C10.  `PopFirst` and `PopLast` on an empty record list return `none` and
leave the whole state (zipper and all line counters) unchanged. -/
theorem pop_on_empty_unchanged (l : bufferRecordList) (h : l.zip = RLZipper.nil) :
    PopFirst l = (none, l) ∧ PopLast l = (none, l) := by
  obtain ⟨zip, above, below, total⟩ := l
  cases h
  exact ⟨rfl, rfl⟩

/-- Witness for `pop_on_empty_unchanged` at the freshly constructed list. -/
theorem pop_on_empty_unchanged_witness :
    NewBufferRecordList.zip = RLZipper.nil ∧
    PopFirst NewBufferRecordList = (none, NewBufferRecordList) := by
  exact ⟨rfl, (pop_on_empty_unchanged NewBufferRecordList rfl).1⟩

/-- C7.  The eagerness targets of the coordinator: `bkdLines` is
`max (bkdEager − above, height − on)` — hence always at least `height − on`,
enough to fill the screen even when `bkdEager = 0` — and, in non-follow mode,
`fwdLines = (height − on) + max (fwdEager − below, 0)`. -/
theorem calcLinesToRead_formulas (b : BufferCfg) (above onScr below : Int) :
    (calcLinesToReadUsingAvailableLines b above onScr below).1 =
      max (b.bkdEager - above) (b.height - onScr) ∧
    b.height - onScr ≤ (calcLinesToReadUsingAvailableLines b above onScr below).1 ∧
    (b.followMode = false →
      (calcLinesToReadUsingAvailableLines b above onScr below).2 =
        b.height - onScr + max (b.fwdEager - below) 0) := by
  refine ⟨rfl, le_max_right _ _, fun hf => ?_⟩
  simp [calcLinesToReadUsingAvailableLines, hf]

/-- Witness for `calcLinesToRead_formulas` with `height = 10`, `eagerness 10`,
3 lines on screen and nothing above or below: read 10 back, 7 + 10 forward. -/
theorem calcLinesToRead_formulas_witness :
    (⟨10, false, 10, 10⟩ : BufferCfg).followMode = false ∧
    (10:Int) - 3 ≤ (calcLinesToReadUsingAvailableLines ⟨10, false, 10, 10⟩ 0 3 0).1 ∧
    (calcLinesToReadUsingAvailableLines ⟨10, false, 10, 10⟩ 0 3 0).2 =
      10 - 3 + max (10 - 0) 0 :=
  ⟨rfl, (calcLinesToRead_formulas ⟨10, false, 10, 10⟩ 0 3 0).2.1,
   (calcLinesToRead_formulas ⟨10, false, 10, 10⟩ 0 3 0).2.2 rfl⟩

/-! ### Claims about the reverse byte reader and the scanners -/

/-- Every `Read` call consumes exactly one entry of the short-read script. -/
theorem readerRead_caps (r : ReaderModel) (k : Nat) :
    (readerRead r k).1.caps = r.caps.tail := by
  rw [readerRead]
  split_ifs <;> rfl

/-- C6.  `ReadBackwardsFrom` computes `toRead = min(fromPos, len(buf))`; when
`toRead = 0` it returns `{n: 0, nextPos: fromPos, seeked: false, left: −1}`
without touching the reader (no seek, no read); otherwise it seeks to
`fromPos − toRead`, performs a single forward read with no retry on short
reads (exactly one script entry is consumed), and returns
`nextPos = fromPos − toRead` and `left = toRead − n`. -/
theorem readBackwardsFrom_contract (r : ReaderModel) (fromPos : Int)
    (bufLen : Nat) (h0 : 0 ≤ fromPos) :
    (min fromPos (bufLen : Int) = 0 →
      ReadBackwardsFrom r fromPos bufLen = (r, [], ⟨0, fromPos, false, -1⟩, none)) ∧
    (0 < min fromPos (bufLen : Int) →
      ReadBackwardsFrom r fromPos bufLen =
        (let toRead := min fromPos (bufLen : Int)
         let rd := readerRead { r with pos := fromPos - toRead } toRead.toNat
         (rd.1, rd.2.1,
          ⟨rd.2.1.length, fromPos - toRead, true, toRead - rd.2.1.length⟩, rd.2.2)) ∧
      (ReadBackwardsFrom r fromPos bufLen).1.caps = r.caps.tail) := by
  constructor
  · intro hz
    rw [ReadBackwardsFrom, if_neg (by omega)]
    rcases (show fromPos = 0 ∨ bufLen = 0 by omega) with rfl | rfl
    · rw [if_pos (by simp)]
    · rw [if_pos (by simp)]
  · intro hp
    have hf : ¬ (fromPos = 0 ∨ bufLen = 0) := by omega
    have hleft : (if fromPos < (bufLen : Int) then fromPos.toNat else bufLen) =
        (min fromPos (bufLen : Int)).toNat := by
      split_ifs <;> omega
    have harg : fromPos - (((min fromPos (bufLen : Int)).toNat : Nat) : Int) =
        fromPos - min fromPos (bufLen : Int) := by omega
    constructor
    · rw [ReadBackwardsFrom, if_neg (by omega), if_neg hf, hleft]
      dsimp only
      rw [harg]
      obtain ⟨⟨r2, data, err⟩, heq⟩ :
          ∃ out, readerRead { r with pos := fromPos - min fromPos (bufLen : Int) }
            (min fromPos (bufLen : Int)).toNat = out := ⟨_, rfl⟩
      rw [heq]
      dsimp only
      simp only [Prod.mk.injEq, BackwardsReadResult.mk.injEq, true_and, and_true]
      omega
    · rw [ReadBackwardsFrom, if_neg (by omega), if_neg hf, hleft]
      dsimp only
      rw [harg]
      obtain ⟨⟨r2, data, err⟩, heq⟩ :
          ∃ out, readerRead { r with pos := fromPos - min fromPos (bufLen : Int) }
            (min fromPos (bufLen : Int)).toNat = out := ⟨_, rfl⟩
      rw [heq]
      have hc := readerRead_caps { r with pos := fromPos - min fromPos (bufLen : Int) }
        (min fromPos (bufLen : Int)).toNat
      rw [heq] at hc
      exact hc

/-- Witness for `readBackwardsFrom_contract`: reading 2 bytes backwards from
position 5 of "hello" seeks to 3 and reads "lo". -/
theorem readBackwardsFrom_contract_witness :
    (0 ≤ (5 : Int) ∧ 0 < min (5 : Int) ((2 : Nat) : Int)) ∧
    ReadBackwardsFrom ⟨strBytes "hello", 5, []⟩ 5 2 =
      (⟨strBytes "hello", 5, []⟩, strBytes "lo", ⟨2, 3, true, 0⟩, none) := by
  refine ⟨⟨by decide, by decide⟩, ?_⟩
  have h := (readBackwardsFrom_contract ⟨strBytes "hello", 5, []⟩ 5 2 (by decide)).2
    (by decide)
  rw [h.1]
  decide

/-- C3.  Scanning "hi\nhello" backwards from the end with chunk size 5: the
first `ReadLine` returns bytes "hello", start offset 3, status ok (`nil`
error); the second returns "hi", offset 0, `io.EOF`. -/
theorem backward_scan_hi_hello :
    (ReadLine 20 (NewBackwardsLineScanner (strBytes "hi\nhello") 5)).map
        (fun out => (out.1, out.2.1, out.2.2.1)) =
      some (some (strBytes "hello"), 3, none) ∧
    ((ReadLine 20 (NewBackwardsLineScanner (strBytes "hi\nhello") 5)).bind
        (fun out => ReadLine 20 out.2.2.2)).map
        (fun out => (out.1, out.2.1, out.2.2.1)) =
      some (some (strBytes "hi"), 0, some .eof) := by
  exact ⟨by decide, by decide⟩

/-- C9.  Whenever `Scan` returns false (the model has no I/O errors, so this
is always an error-free false), `Bytes()` returns nil and `Text()` returns the
empty string: buffered partial-line data is never exposed by the accessors. -/
theorem fwd_scan_false_hides_token (s : ForwardsLineScanner) (content : List Nat)
    (h : (FwdScan s content).1 = false) :
    FwdBytes (FwdScan s content).2 = none ∧ FwdText (FwdScan s content).2 = [] := by
  obtain ⟨⟨res, bs, newPos⟩, heq⟩ : ∃ out, internalScan content s.pos = out := ⟨_, rfl⟩
  by_cases hco : s.isCarryOver <;>
    simp only [FwdScan, heq, hco, if_true, if_false] at h ⊢ <;>
    split_ifs at h ⊢ <;>
    simp_all [FwdBytes, FwdText]

/-- Witness for `fwd_scan_false_hides_token`: scanning "hi" (no newline)
returns false and the accessors hide the buffered "hi". -/
theorem fwd_scan_false_hides_token_witness :
    (FwdScan (NewForwardsLineScanner 0) (strBytes "hi")).1 = false ∧
    FwdBytes (FwdScan (NewForwardsLineScanner 0) (strBytes "hi")).2 = none := by
  refine ⟨by decide, ?_⟩
  exact (fwd_scan_false_hides_token (NewForwardsLineScanner 0) (strBytes "hi")
    (by decide)).1

theorem firstNlIdx_eq_none_iff (l : List Nat) :
    firstNlIdx l = none ↔ ∀ b ∈ l, b ≠ 10 := by
  induction l with
  | nil => simp [firstNlIdx]
  | cons b rest ih =>
      by_cases hb : b = 10 <;> simp [firstNlIdx, hb, ih]

theorem firstNlIdx_append_nl (u v : List Nat) (hu : firstNlIdx u = none) :
    firstNlIdx (u ++ 10 :: v) = some u.length := by
  induction u with
  | nil => simp [firstNlIdx]
  | cons b rest ih =>
      rw [firstNlIdx] at hu
      by_cases hb : b = 10
      · simp [hb] at hu
      · have hrest : firstNlIdx rest = none := by
          rcases h : firstNlIdx rest with _ | i
          · rfl
          · rw [h] at hu
            simp [hb] at hu
        rw [List.cons_append, firstNlIdx, ih hrest]
        simp [hb]

theorem take_append_nl (u v : List Nat) :
    (u ++ 10 :: v).take (u.length + 1) = u ++ [10] := by
  rw [List.take_append_eq_append_take, List.take_of_length_le (by omega)]
  congr 1
  simp

/-- C4.  If the forward scanner reaches EOF mid-line (data but no newline left
at its read position), `Scan` returns false with no error and buffers the
partial token; after more data is appended, the next newline-terminated `Scan`
emits the retained prefix concatenated with the freshly read suffix.  The
final conjuncts are the concrete instance: scanning "hi", then appending
"ya\nwhats up\nmore data", yields "hiya", then "whats up", then false with
"more data" buffered. -/
theorem fwd_scan_eof_midline_resumes (content extra u v : List Nat)
    (s : ForwardsLineScanner)
    (hpos : s.pos < content.length)
    (hnl : firstNlIdx (content.drop s.pos) = none)
    (hco : s.isCarryOver = false)
    (hextra : extra = u ++ 10 :: v)
    (hu : firstNlIdx u = none) :
    ((FwdScan s content).1 = false ∧
     (FwdScan s content).2 = ⟨content.length, some (content.drop s.pos), true⟩ ∧
     (FwdScan (FwdScan s content).2 (content ++ extra)).1 = true ∧
     FwdText (FwdScan (FwdScan s content).2 (content ++ extra)).2 =
       content.drop s.pos ++ u) ∧
    (FwdScan (NewForwardsLineScanner 0) (strBytes "hi") =
       (false, ⟨2, some (strBytes "hi"), true⟩) ∧
     FwdScan ⟨2, some (strBytes "hi"), true⟩ (strBytes "hiya\nwhats up\nmore data") =
       (true, ⟨5, some (strBytes "hiya"), false⟩) ∧
     FwdScan ⟨5, some (strBytes "hiya"), false⟩ (strBytes "hiya\nwhats up\nmore data") =
       (true, ⟨14, some (strBytes "whats up"), false⟩) ∧
     FwdScan ⟨14, some (strBytes "whats up"), false⟩ (strBytes "hiya\nwhats up\nmore data") =
       (false, ⟨23, some (strBytes "more data"), true⟩)) := by
  have hinternal1 : internalScan content s.pos = (true, content.drop s.pos, content.length) := by
    rw [internalScan, hnl, if_pos hpos]
  have hbs_ne : (content.drop s.pos).length ≠ 0 := by
    simp only [List.length_drop]
    omega
  have hlast1 : (content.drop s.pos).getLast? ≠ some 10 := by
    cases hlast : (content.drop s.pos).getLast? with
    | none => simp
    | some b =>
        have hb : b ∈ content.drop s.pos := List.mem_of_mem_getLast? (by rw [hlast]; rfl)
        have := (firstNlIdx_eq_none_iff _).1 hnl b hb
        simpa using this
  have h1 : FwdScan s content = (false, ⟨content.length, some (content.drop s.pos), true⟩) := by
    rw [FwdScan, hinternal1]
    simp only [hco]
    split_ifs <;> simp_all
  have hinternal2 : internalScan (content ++ extra) content.length =
      (true, u ++ [10], content.length + u.length + 1) := by
    rw [internalScan, List.drop_left, hextra, firstNlIdx_append_nl u v hu]
    simp only
    rw [take_append_nl]
  have hdrop : (content.drop s.pos ++ (u ++ [10])).dropLast = content.drop s.pos ++ u := by
    rw [← List.append_assoc, List.dropLast_concat]
  have h2 : FwdScan ⟨content.length, some (content.drop s.pos), true⟩ (content ++ extra) =
      (true, ⟨content.length + u.length + 1, some (content.drop s.pos ++ u), false⟩) := by
    rw [FwdScan, hinternal2]
    simp only
    split_ifs <;> simp_all [List.getLast?_concat]
  refine ⟨⟨by rw [h1], by rw [h1], by rw [h1, h2], by rw [h1, h2]; rfl⟩,
          by decide, by decide, by decide, by decide⟩

/-- Witness for `fwd_scan_eof_midline_resumes`: the "hi" / "ya\nwhats up\nmore
data" scenario. -/
theorem fwd_scan_eof_midline_resumes_witness :
    ((NewForwardsLineScanner 0).pos < (strBytes "hi").length ∧
     firstNlIdx ((strBytes "hi").drop (NewForwardsLineScanner 0).pos) = none ∧
     (NewForwardsLineScanner 0).isCarryOver = false ∧
     strBytes "ya\nwhats up\nmore data" =
       strBytes "ya" ++ 10 :: strBytes "whats up\nmore data" ∧
     firstNlIdx (strBytes "ya") = none) ∧
    ((FwdScan (NewForwardsLineScanner 0) (strBytes "hi")).1 = false ∧
     FwdText (FwdScan (FwdScan (NewForwardsLineScanner 0) (strBytes "hi")).2
         (strBytes "hi" ++ strBytes "ya\nwhats up\nmore data")).2 =
       (strBytes "hi").drop (NewForwardsLineScanner 0).pos ++ strBytes "ya") := by
  refine ⟨⟨by decide, by decide, rfl, by decide, by decide⟩, ?_⟩
  have h := fwd_scan_eof_midline_resumes (strBytes "hi")
    (strBytes "ya\nwhats up\nmore data") (strBytes "ya")
    (strBytes "whats up\nmore data") (NewForwardsLineScanner 0)
    (by decide) (by decide) rfl (by decide) (by decide)
  exact ⟨h.1.1, h.1.2.2.2⟩

/-- `readMore` either returns the stored error unchanged, or (when no error is
stored) appends exactly one chunk, leaving `nextNewLine` and `lastErr` as they
were. -/
theorem readMore_state (s : BackwardsLineScanner) :
    (∃ e, s.lastErr = some e ∧ readMore s = (s, 0, some e)) ∨
    (s.lastErr = none ∧ ∃ c r2 np n e,
      readMore s = ({ s with
          reader := r2, nextPos := np,
          chunks := s.chunks ++ [c] }, n, e)) := by
  cases h : s.lastErr with
  | some e =>
      left
      exact ⟨e, rfl, by rw [readMore, h]⟩
  | none =>
      right
      refine ⟨rfl, ?_⟩
      rw [readMore, h]
      dsimp only
      split_ifs <;> exact ⟨_, _, _, _, _, rfl⟩

/-- Once in the sticky end-of-stream shape, `ReadLine` returns empty bytes,
offset 0 and `io.EOF`, and leaves the state exactly as it was. -/
theorem readLine_sticky (s : BackwardsLineScanner) (h : eofSticky s) (fuel : Nat) :
    ReadLine (fuel + 1) s = some (some [], 0, some .eof, s) := by
  obtain ⟨hch, hdis, huac⟩ := h
  rw [ReadLine, if_neg huac]
  by_cases hnn : s.nextNewLine = -1
  · have heof : s.lastErr = some .eof := by
      rcases hdis with hd | hd
      · exact absurd hnn hd
      · exact hd
    have hrm : readMore s = (s, 0, some GoErr.eof) := by rw [readMore, heof]
    rw [if_pos hnn, hrm]
    have hs : { s with lastErr := some GoErr.eof } = s := by
      obtain ⟨rd, np, cs, ch, nn, le⟩ := s
      simp_all
    dsimp only
    rw [hs, if_neg (by simp), hch]
    rfl
  · rw [if_neg hnn]
    dsimp only
    rw [if_neg (by simp), hch]
    rfl

/-- Any `ReadLine` call that reports `io.EOF` leaves the scanner in the sticky
end-of-stream shape. -/
theorem readLine_eof_sticky (fuel : Nat) :
    ∀ (s : BackwardsLineScanner) (bs : Option (List Nat)) (pos : Int)
      (s' : BackwardsLineScanner),
    ReadLine fuel s = some (bs, pos, some .eof, s') → eofSticky s' := by
  induction fuel with
  | zero => intro s bs pos s' h; simp [ReadLine] at h
  | succ fuel ih =>
      intro s bs pos s' h
      rw [ReadLine] at h
      by_cases huac : s.lastErr = some GoErr.useAfterClose
      · rw [if_pos huac] at h
        simp at h
      · rw [if_neg huac] at h
        by_cases hnn : s.nextNewLine = -1
        · rw [if_pos hnn] at h
          rcases readMore_state s with ⟨e, hle, hrm⟩ | ⟨hle, c, r2, np, n, e, hrm⟩
          · -- readMore returned the stored error: the state is unchanged
            rw [hrm] at h
            dsimp only at h
            cases e with
            | eof =>
                rw [if_neg (show ¬(some GoErr.eof ≠ none ∧ some GoErr.eof ≠ some GoErr.eof)
                  by simp)] at h
                rcases hlast : s.chunks.getLast? with _ | cur
                · rw [hlast] at h
                  simp only [Option.some.injEq, Prod.mk.injEq] at h
                  obtain ⟨-, -, -, hs'⟩ := h
                  subst hs'
                  exact ⟨List.getLast?_eq_none_iff.mp hlast, Or.inr rfl, by simp⟩
                · rw [hlast] at h
                  dsimp only at h
                  rw [if_pos hnn] at h
                  by_cases hnl : lastIdxNl cur.buf = -1
                  · rw [if_pos (show lastIdxNl cur.buf ≠ -1 ∨
                        some GoErr.eof = some GoErr.eof from Or.inr rfl)] at h
                    rw [if_neg (show ¬(lastIdxNl cur.buf ≠ -1) by simp [hnl])] at h
                    rw [if_neg (show ¬(lastIdxNl cur.buf ≠ -1 ∧
                        some GoErr.eof = some GoErr.eof) by simp [hnl])] at h
                    simp only [Option.some.injEq, Prod.mk.injEq] at h
                    obtain ⟨-, -, -, hs'⟩ := h
                    subst hs'
                    exact ⟨rfl, Or.inr rfl, by simp⟩
                  · rw [if_pos (show lastIdxNl cur.buf ≠ -1 ∨
                        some GoErr.eof = some GoErr.eof from Or.inl hnl)] at h
                    rw [if_pos (show lastIdxNl cur.buf ≠ -1 from hnl)] at h
                    rw [if_pos (show lastIdxNl cur.buf ≠ -1 ∧
                        some GoErr.eof = some GoErr.eof from ⟨hnl, rfl⟩)] at h
                    simp at h
            | unexpectedEof => rw [if_pos (by simp)] at h; simp at h
            | noProgress => rw [if_pos (by simp)] at h; simp at h
            | shortBuffer => rw [if_pos (by simp)] at h; simp at h
            | shortRead => rw [if_pos (by simp)] at h; simp at h
            | useAfterClose => exact absurd hle huac
            | panicked => rw [if_pos (by simp)] at h; simp at h
          · -- readMore loaded one more chunk
            rw [hrm] at h
            dsimp only at h
            cases e with
            | none =>
                rw [if_neg (show ¬((none : Option GoErr) ≠ none ∧
                    (none : Option GoErr) ≠ some GoErr.eof) by simp)] at h
                rw [List.getLast?_concat] at h
                dsimp only at h
                rw [if_pos hnn] at h
                by_cases hnl : lastIdxNl c.buf = -1
                · rw [if_neg (show ¬(lastIdxNl c.buf ≠ -1 ∨
                      (none : Option GoErr) = some GoErr.eof) by simp [hnl])] at h
                  exact ih _ _ _ _ h
                · rw [if_pos (show lastIdxNl c.buf ≠ -1 ∨
                      (none : Option GoErr) = some GoErr.eof from Or.inl hnl)] at h
                  rw [if_pos (show lastIdxNl c.buf ≠ -1 from hnl)] at h
                  rw [if_neg (show ¬(lastIdxNl c.buf ≠ -1 ∧
                      (none : Option GoErr) = some GoErr.eof) by simp)] at h
                  simp at h
            | some e' =>
                cases e' with
                | eof =>
                    rw [if_neg (show ¬(some GoErr.eof ≠ none ∧
                        some GoErr.eof ≠ some GoErr.eof) by simp)] at h
                    rw [List.getLast?_concat] at h
                    dsimp only at h
                    rw [if_pos hnn] at h
                    by_cases hnl : lastIdxNl c.buf = -1
                    · rw [if_pos (show lastIdxNl c.buf ≠ -1 ∨
                          some GoErr.eof = some GoErr.eof from Or.inr rfl)] at h
                      rw [if_neg (show ¬(lastIdxNl c.buf ≠ -1) by simp [hnl])] at h
                      rw [if_neg (show ¬(lastIdxNl c.buf ≠ -1 ∧
                          some GoErr.eof = some GoErr.eof) by simp [hnl])] at h
                      simp only [Option.some.injEq, Prod.mk.injEq] at h
                      obtain ⟨-, -, -, hs'⟩ := h
                      subst hs'
                      exact ⟨rfl, Or.inr rfl, by simp⟩
                    · rw [if_pos (show lastIdxNl c.buf ≠ -1 ∨
                          some GoErr.eof = some GoErr.eof from Or.inl hnl)] at h
                      rw [if_pos (show lastIdxNl c.buf ≠ -1 from hnl)] at h
                      rw [if_pos (show lastIdxNl c.buf ≠ -1 ∧
                          some GoErr.eof = some GoErr.eof from ⟨hnl, rfl⟩)] at h
                      simp at h
                | unexpectedEof => rw [if_pos (by simp)] at h; simp at h
                | noProgress => rw [if_pos (by simp)] at h; simp at h
                | shortBuffer => rw [if_pos (by simp)] at h; simp at h
                | shortRead => rw [if_pos (by simp)] at h; simp at h
                | useAfterClose => rw [if_pos (by simp)] at h; simp at h
                | panicked => rw [if_pos (by simp)] at h; simp at h
        · rw [if_neg hnn] at h
          dsimp only at h
          rw [if_neg (show ¬((none : Option GoErr) ≠ none ∧
              (none : Option GoErr) ≠ some GoErr.eof) by simp)] at h
          rcases hlast : s.chunks.getLast? with _ | cur
          · rw [hlast] at h
            simp only [Option.some.injEq, Prod.mk.injEq] at h
            obtain ⟨-, -, -, hs'⟩ := h
            subst hs'
            exact ⟨List.getLast?_eq_none_iff.mp hlast, Or.inl hnn, huac⟩
          · rw [hlast] at h
            dsimp only at h
            rw [if_neg hnn] at h
            rw [if_pos (show s.nextNewLine ≠ -1 ∨
                (none : Option GoErr) = some GoErr.eof from Or.inl hnn)] at h
            rw [if_pos (show s.nextNewLine ≠ -1 from hnn)] at h
            rw [if_neg (show ¬(s.nextNewLine ≠ -1 ∧
                (none : Option GoErr) = some GoErr.eof) by simp)] at h
            simp at h

theorem lastIdxNl_of_no_nl (l : List Nat) (h : ∀ b ∈ l, b ≠ 10) :
    lastIdxNl l = -1 := by
  induction l with
  | nil => rfl
  | cons b rest ih =>
      have hb : b ≠ 10 := h b (by simp)
      have hr : lastIdxNl rest = -1 := ih (fun x hx => h x (by simp [hx]))
      rw [lastIdxNl, hr]
      simp [hb]

theorem lastIdxNl_replicate_zero (n : Nat) :
    lastIdxNl (List.replicate n 0) = -1 :=
  lastIdxNl_of_no_nl _ (by
    intro b hb
    rw [List.eq_of_mem_replicate hb]
    decide)

/-- C5.  Once a `ReadLine` call has reported `io.EOF` (in particular, with the
line that reaches byte offset 0), the state reached is a fixed point: every
subsequent call (any positive fuel) returns empty bytes, offset 0 and `io.EOF`
again, leaving the state unchanged.  And on an empty stream the very first
`ReadLine` returns empty bytes with offset 0 and `io.EOF`, for every chunk
size. -/
theorem backward_eof_sticky_and_empty (s : BackwardsLineScanner)
    (fuel : Nat) (bs : Option (List Nat)) (pos : Int) (s' : BackwardsLineScanner)
    (h : ReadLine fuel s = some (bs, pos, some .eof, s')) :
    (∀ fuel', ReadLine (fuel' + 1) s' = some (some [], 0, some .eof, s')) ∧
    (∀ (chunkSize : Nat) (fuel' : Nat),
      (ReadLine (fuel' + 1) (NewBackwardsLineScanner [] chunkSize)).map
          (fun out => (out.1, out.2.1, out.2.2.1)) =
        some (some [], 0, some .eof)) := by
  constructor
  · intro fuel'
    exact readLine_sticky s' (readLine_eof_sticky fuel s bs pos s' h) fuel'
  · intro cs fuel'
    have hmain : readMore (NewBackwardsLineScanner [] cs) =
        ({ NewBackwardsLineScanner [] cs with
            reader := ⟨[], 0, []⟩, nextPos := 0,
            chunks := [⟨List.replicate cs 0, 0⟩] }, 0, some .eof) := rfl
    rw [ReadLine]
    rw [if_neg (show (NewBackwardsLineScanner [] cs).lastErr ≠ some GoErr.useAfterClose
      by simp [NewBackwardsLineScanner])]
    rw [if_pos (show (NewBackwardsLineScanner [] cs).nextNewLine = -1 from rfl)]
    rw [hmain]
    dsimp only
    rw [if_neg (show ¬(some GoErr.eof ≠ none ∧ some GoErr.eof ≠ some GoErr.eof) by simp)]
    rw [show ([(⟨List.replicate cs 0, 0⟩ : readChunk)] : List readChunk).getLast? =
      some ⟨List.replicate cs 0, 0⟩ from rfl]
    dsimp only
    rw [if_pos (show (NewBackwardsLineScanner [] cs).nextNewLine = -1 from rfl)]
    rw [lastIdxNl_replicate_zero]
    rw [if_pos (show (-1 : Int) ≠ -1 ∨ some GoErr.eof = some GoErr.eof from Or.inr rfl)]
    rw [if_neg (show ¬((-1 : Int) ≠ -1) by simp)]
    rw [if_neg (show ¬((-1 : Int) ≠ -1 ∧ some GoErr.eof = some GoErr.eof) by simp)]
    rfl

/-- Witness for `backward_eof_sticky_and_empty`: after backwards-scanning the
single-line file "hello" (chunk size 8) to its `io.EOF` result, the next call
returns empty
bytes, offset 0 and `io.EOF` again. -/
theorem backward_eof_sticky_and_empty_witness :
    (ReadLine 20 (NewBackwardsLineScanner (strBytes "hello") 8)).map
        (fun out => (out.1, out.2.1, out.2.2.1)) =
      some (some (strBytes "hello"), 0, some .eof) ∧
    ∀ out, ReadLine 20 (NewBackwardsLineScanner (strBytes "hello") 8) = some out →
      ReadLine 20 out.2.2.2 = some (some [], 0, some .eof, out.2.2.2) := by
  refine ⟨by decide, ?_⟩
  intro out hout
  obtain ⟨bs, pos, err, st⟩ := out
  have herr : err = some GoErr.eof := by
    have : (ReadLine 20 (NewBackwardsLineScanner (strBytes "hello") 8)).map
        (fun out => (out.1, out.2.1, out.2.2.1)) =
      some (some (strBytes "hello"), 0, some .eof) := by decide
    rw [hout] at this
    simp only [Option.map, Option.some.injEq, Prod.mk.injEq] at this
    exact this.2.2
  subst herr
  exact (backward_eof_sticky_and_empty _ 20 bs pos st hout).1 19

/-! ### Newline-index and segment toolkit -/

theorem lastIdxNl_lb (l : List Nat) : -1 ≤ lastIdxNl l := by
  induction l with
  | nil => simp [lastIdxNl]
  | cons x rest ih =>
      rw [lastIdxNl]
      split_ifs <;> omega

theorem lastIdxNl_append (a b : List Nat) :
    lastIdxNl (a ++ b) =
      if lastIdxNl b ≥ 0 then (a.length : Int) + lastIdxNl b else lastIdxNl a := by
  induction a with
  | nil =>
      rw [List.nil_append]
      have hlb := lastIdxNl_lb b
      have hnil : lastIdxNl ([] : List Nat) = -1 := rfl
      simp only [List.length_nil]
      split_ifs <;> omega
  | cons x rest ih =>
      rw [List.cons_append, lastIdxNl, ih, lastIdxNl]
      by_cases hb : lastIdxNl b ≥ 0
      · rw [if_pos hb]
        have h1 : (rest.length : Int) + lastIdxNl b ≥ 0 := by omega
        rw [if_pos h1, if_pos hb]
        simp
        omega
      · rw [if_neg hb, if_neg hb]

theorem lastIdxNl_neg_iff (l : List Nat) : lastIdxNl l = -1 ↔ noNl l := by
  constructor
  · induction l with
    | nil => intro _ b hb; simp at hb
    | cons x rest ih =>
        intro h b hb
        rw [lastIdxNl] at h
        by_cases hr : lastIdxNl rest ≥ 0
        · rw [if_pos hr] at h; omega
        · rw [if_neg hr] at h
          have hrest : lastIdxNl rest = -1 := by
            have := lastIdxNl_lb rest
            omega
          rcases List.mem_cons.mp hb with rfl | hb'
          · intro hx
            rw [hx] at h
            simp at h
          · exact ih hrest b hb'
  · exact lastIdxNl_of_no_nl l

theorem lastIdxNl_ub (l : List Nat) : lastIdxNl l < l.length := by
  induction l with
  | nil => simp [lastIdxNl]
  | cons x rest ih =>
      rw [lastIdxNl]
      simp only [List.length_cons]
      split_ifs <;> omega

theorem lastIdxNl_nl_append (u v : List Nat) (hv : noNl v) :
    lastIdxNl (u ++ 10 :: v) = u.length := by
  have hv' : lastIdxNl (10 :: v) = 0 := by
    rw [lastIdxNl, (lastIdxNl_neg_iff v).mpr hv]
    simp
  rw [lastIdxNl_append, hv']
  simp

theorem lastIdxNl_spec (l : List Nat) (i : Nat) (h : lastIdxNl l = (i : Int)) :
    ∃ u v, l = u ++ 10 :: v ∧ u.length = i ∧ noNl v := by
  induction l generalizing i with
  | nil => simp [lastIdxNl] at h
  | cons x rest ih =>
      rw [lastIdxNl] at h
      by_cases hr : lastIdxNl rest ≥ 0
      · rw [if_pos hr] at h
        obtain ⟨j, hj⟩ : ∃ j : Nat, lastIdxNl rest = (j : Int) := ⟨(lastIdxNl rest).toNat, by omega⟩
        obtain ⟨u, v, rfl, rfl, hv⟩ := ih j hj
        refine ⟨x :: u, v, rfl, ?_, hv⟩
        rw [hj] at h
        simp only [List.length_cons]
        omega
      · rw [if_neg hr] at h
        by_cases hx : x = 10
        · rw [if_pos (by simp [hx])] at h
          have hi : i = 0 := by omega
          subst hi hx
          have hrest : lastIdxNl rest = -1 := by
            have := lastIdxNl_lb rest
            omega
          exact ⟨[], rest, rfl, rfl, (lastIdxNl_neg_iff rest).mp hrest⟩
        · rw [if_neg (by simp [hx])] at h
          omega

theorem segsFwd_ne_nil (l : List Nat) : segsFwd l ≠ [] := by
  cases l with
  | nil => simp [segsFwd]
  | cons b rest =>
      rw [segsFwd]
      rcases h : segsFwd rest with _ | ⟨x, t⟩
      · simp
      · split_ifs <;> simp

theorem segsFwd_no_nl (l : List Nat) (h : noNl l) : segsFwd l = [l] := by
  induction l with
  | nil => rfl
  | cons b rest ih =>
      have hb : b ≠ 10 := h b (by simp)
      have hrest := ih (fun x hx => h x (by simp [hx]))
      rw [segsFwd, hrest]
      simp [hb]

theorem segsFwd_cons (b : Nat) (rest : List Nat) :
    segsFwd (b :: rest) =
      match segsFwd rest with
      | [] => [[]]
      | h :: t => if b == 10 then [] :: h :: t else (b :: h) :: t := by
  rw [segsFwd]

theorem segsFwd_cons_nl (rest : List Nat) :
    segsFwd (10 :: rest) = [] :: segsFwd rest := by
  rw [segsFwd_cons]
  rcases h : segsFwd rest with _ | ⟨x, t⟩
  · exact absurd h (segsFwd_ne_nil rest)
  · simp

theorem segsFwd_cons_other (b : Nat) (rest : List Nat) (hb : b ≠ 10) :
    segsFwd (b :: rest) =
      (b :: (segsFwd rest).headD []) :: (segsFwd rest).tail := by
  rw [segsFwd_cons]
  rcases h : segsFwd rest with _ | ⟨x, t⟩
  · exact absurd h (segsFwd_ne_nil rest)
  · simp [hb]

theorem segsFwd_append_nl (u v : List Nat) (hv : noNl v) :
    segsFwd (u ++ 10 :: v) = segsFwd u ++ [v] := by
  induction u with
  | nil =>
      rw [List.nil_append, segsFwd_cons_nl, segsFwd_no_nl v hv]
      rfl
  | cons b rest ih =>
      by_cases hb : b = 10
      · subst hb
        rw [List.cons_append, segsFwd_cons_nl, segsFwd_cons_nl, ih]
        simp
      · rw [List.cons_append, segsFwd_cons_other b _ hb, segsFwd_cons_other b _ hb, ih]
        rcases h : segsFwd rest with _ | ⟨x, t⟩
        · exact absurd h (segsFwd_ne_nil rest)
        · simp

theorem segsFwd_first_nl (l : List Nat) (i : Nat) (h : firstNlIdx l = some i) :
    segsFwd l = l.take i :: segsFwd (l.drop (i + 1)) := by
  induction l generalizing i with
  | nil => simp [firstNlIdx] at h
  | cons b rest ih =>
      rw [firstNlIdx] at h
      by_cases hb : b = 10
      · rw [if_pos (by simp [hb])] at h
        obtain rfl : (0 : Nat) = i := by simpa using h
        subst hb
        rw [segsFwd_cons_nl]
        simp
      · rw [if_neg (by simp [hb])] at h
        rcases hr : firstNlIdx rest with _ | j
        · rw [hr] at h; simp at h
        · rw [hr] at h
          have hj : j + 1 = i := by simpa using h
          subst hj
          rw [segsFwd_cons_other b rest hb, ih j hr]
          simp

theorem firstNlIdx_spec (l : List Nat) (i : Nat) (h : firstNlIdx l = some i) :
    ∃ u v, l = u ++ 10 :: v ∧ u.length = i ∧ noNl u := by
  induction l generalizing i with
  | nil => simp [firstNlIdx] at h
  | cons b rest ih =>
      rw [firstNlIdx] at h
      by_cases hb : b = 10
      · rw [if_pos (by simp [hb])] at h
        obtain rfl : (0 : Nat) = i := by simpa using h
        subst hb
        exact ⟨[], rest, rfl, rfl, fun x hx => by simp at hx⟩
      · rw [if_neg (by simp [hb])] at h
        rcases hr : firstNlIdx rest with _ | j
        · rw [hr] at h; simp at h
        · rw [hr] at h
          have hj : j + 1 = i := by simpa using h
          subst hj
          obtain ⟨u, v, rfl, rfl, hu⟩ := ih j hr
          refine ⟨b :: u, v, rfl, rfl, ?_⟩
          intro x hx
          rcases List.mem_cons.mp hx with rfl | hx'
          · exact hb
          · exact hu x hx'

/-- Driving the forward scanner to its first false collects exactly the
newline-terminated segments of `content.drop pos` — all segments but the
trailing unterminated one. -/
theorem collectForward_spec (fuel : Nat) :
    ∀ (content : List Nat) (pos : Nat) (tok : Option (List Nat)),
    pos ≤ content.length → content.length - pos < fuel →
    collectForward fuel ⟨pos, tok, false⟩ content =
      (segsFwd (content.drop pos)).dropLast := by
  induction fuel with
  | zero => intro content pos tok h1 h2; omega
  | succ fuel ih =>
      intro content pos tok h1 h2
      rw [collectForward]
      rcases hnl : firstNlIdx (content.drop pos) with _ | i
      · by_cases hpos : pos < content.length
        · have hint : internalScan content pos = (true, content.drop pos, content.length) := by
            rw [internalScan, hnl, if_pos hpos]
          have hlen : (content.drop pos).length ≠ 0 := by
            simp only [List.length_drop]
            omega
          have hlast : (content.drop pos).getLast? ≠ some 10 := by
            cases hl : (content.drop pos).getLast? with
            | none => simp
            | some b =>
                have hb : b ∈ content.drop pos :=
                  List.mem_of_mem_getLast? (by rw [hl]; rfl)
                have := (firstNlIdx_eq_none_iff _).1 hnl b hb
                simpa using this
          have hscan : FwdScan ⟨pos, tok, false⟩ content =
              (false, ⟨content.length, some (content.drop pos), true⟩) := by
            rw [FwdScan, hint]
            simp only
            split_ifs <;> simp_all
          rw [hscan, segsFwd_no_nl _ ((firstNlIdx_eq_none_iff _).1 hnl)]
          simp
        · have hint : internalScan content pos = (false, [], pos) := by
            rw [internalScan, hnl, if_neg (by omega)]
          have hscan : FwdScan ⟨pos, tok, false⟩ content = (false, ⟨pos, none, false⟩) := by
            rw [FwdScan, hint]
            simp only
            split_ifs <;> simp_all
          rw [hscan]
          have hdropnil : content.drop pos = [] := by
            apply List.drop_eq_nil_of_le
            omega
          rw [hdropnil]
          simp [segsFwd]
      · obtain ⟨u, v, hl, hlen_u, hu⟩ := firstNlIdx_spec _ i hnl
        have hint : internalScan content pos = (true, u ++ [10], pos + i + 1) := by
          rw [internalScan, hnl]
          simp only
          rw [hl, ← hlen_u, take_append_nl]
        have hscan : FwdScan ⟨pos, tok, false⟩ content =
            (true, ⟨pos + i + 1, some u, false⟩) := by
          rw [FwdScan, hint]
          simp only
          split_ifs <;> simp_all [List.getLast?_concat]
        have hlc : content.length - pos = i + 1 + v.length := by
          have := congrArg List.length hl
          simp only [List.length_drop, List.length_append, List.length_cons] at this
          omega
        rw [hscan]
        simp only [if_true]
        have hrec := ih content (pos + i + 1) (some u) (by omega) (by omega)
        have hdd : content.drop (pos + i + 1) = (content.drop pos).drop (i + 1) := by
          rw [List.drop_drop]
          congr 1
        rw [segsFwd_first_nl _ i hnl,
            List.dropLast_cons_of_ne_nil (segsFwd_ne_nil _)]
        have htake : (content.drop pos).take i = u := by
          rw [hl, ← hlen_u, List.take_left]
        rw [htake]
        congr 1
        rw [hrec, hdd]

/-- The forward scanner, driven from position 0 until its first false, yields
all newline-terminated segments of the file in order. -/
theorem forwardLines_eq (content : List Nat) :
    forwardLines content = (segsFwd content).dropLast := by
  rw [forwardLines, NewForwardsLineScanner]
  have h := collectForward_spec (content.length + 1) content 0 (some [])
    (by omega) (by omega)
  simpa using h

/-! ### Ideal-file computations for the backwards scanner -/

theorem readerRead_ideal (content : List Nat) (p k : Nat)
    (hk : 1 ≤ k) (hpk : p + k ≤ content.length) :
    readerRead ⟨content, (p : Int), []⟩ k =
      (⟨content, ((p + k : Nat) : Int), []⟩, (content.drop p).take k, none) := by
  rw [readerRead]
  simp only [List.head?_nil, List.tail_nil]
  split_ifs with h1 h2
  · exact absurd h1 (by omega)
  · exact absurd h2 (by omega)
  · have ht : ((p : Int)).toNat = p := by omega
    rw [ht]
    have hn : min k (content.length - p) = k := by omega
    rw [hn]
    have h2 : (p : Int) + (k : Int) = ((p + k : Nat) : Int) := by omega
    rw [h2]

theorem readBackwardsFrom_ideal (content : List Nat) (rp : Int) (np cs : Nat)
    (hnp : 1 ≤ np) (hcs : 1 ≤ cs) (hlen : np ≤ content.length) :
    ReadBackwardsFrom ⟨content, rp, []⟩ (np : Int) cs =
      (⟨content, (np : Int), []⟩,
       (content.drop (np - min np cs)).take (min np cs),
       ⟨min np cs, ((np - min np cs : Nat) : Int), true, 0⟩,
       none) := by
  rw [ReadBackwardsFrom]
  rw [if_neg (by omega), if_neg (by omega)]
  have hleft : (if (np : Int) < ((cs : Nat) : Int) then ((np : Int)).toNat else cs)
      = min np cs := by
    split_ifs <;> omega
  dsimp only
  rw [hleft]
  have hpos : (np : Int) - ((min np cs : Nat) : Int) = ((np - min np cs : Nat) : Int) := by
    omega
  rw [hpos]
  rw [readerRead_ideal content (np - min np cs) (min np cs) (by omega) (by omega)]
  dsimp only
  have harith : (np - min np cs + min np cs : Nat) = np := by omega
  rw [harith]
  have hlen2 : ((content.drop (np - min np cs)).take (min np cs)).length = min np cs := by
    simp only [List.length_take, List.length_drop]
    omega
  rw [hlen2, sub_self]

theorem readMore_ideal (content : List Nat) (s : BackwardsLineScanner) (np : Nat)
    (hc : s.reader.content = content) (hcaps : s.reader.caps = [])
    (hle : s.lastErr = none) (hnp : s.nextPos = (np : Int))
    (hlen : np ≤ content.length) (hcs : 1 ≤ s.chunkSize) :
    readMore s =
      ({ s with
          reader := ⟨content, if np = 0 then s.reader.pos else (np : Int), []⟩,
          nextPos := ((np - min np s.chunkSize : Nat) : Int),
          chunks := s.chunks ++
            [⟨(content.drop (np - min np s.chunkSize)).take (min np s.chunkSize) ++
                List.replicate (s.chunkSize - min np s.chunkSize) 0,
              min np s.chunkSize⟩] },
        min np s.chunkSize,
        if np - min np s.chunkSize = 0 then some GoErr.eof else none) := by
  obtain ⟨⟨rc, rp, rcaps⟩, snp, scs, sch, snn, sle⟩ := s
  simp only at hc hcaps hle hnp hcs ⊢
  subst hcaps hle hnp
  have hc2 := hc.symm
  subst hc2
  by_cases hz : np = 0
  · subst hz
    rw [readMore]
    dsimp only
    rw [ReadBackwardsFrom, if_neg (show ¬(((0 : Nat) : Int) < 0) by omega),
      if_pos (show (((0 : Nat) : Int) = 0 ∨ scs = 0) by omega)]
    dsimp only
    rw [if_neg (show ¬((-1 : Int) > 0) by omega)]
    dsimp only
    rw [if_neg (show ¬((none : Option GoErr) = some GoErr.eof) by simp)]
    rw [if_pos (show (((0 : Nat) : Int) = 0) by omega)]
    have hmin : min 0 scs = 0 := by omega
    rw [hmin]
    simp [listWrite, if_pos rfl]
  · rw [readMore]
    dsimp only
    rw [readBackwardsFrom_ideal content rp np scs (by omega) hcs hlen]
    dsimp only
    have hdl : ((content.drop (np - min np scs)).take (min np scs)).length = min np scs := by
      simp only [List.length_take, List.length_drop]
      omega
    have hbuf : listWrite (List.replicate scs 0) 0
        ((content.drop (np - min np scs)).take (min np scs)) =
        (content.drop (np - min np scs)).take (min np scs) ++
          List.replicate (scs - min np scs) 0 := by
      rw [listWrite, hdl]
      simp [List.drop_replicate]
    rw [if_neg (show ¬((0 : Int) > 0) by omega)]
    dsimp only
    rw [hbuf]
    rw [if_neg (show ¬((none : Option GoErr) = some GoErr.eof) by simp)]
    rw [if_neg hz]
    by_cases he : np - min np scs = 0
    · rw [if_pos (show ((np - min np scs : Nat) : Int) = 0 by omega), if_pos he]
    · rw [if_neg (show ¬(((np - min np scs : Nat) : Int) = 0) by omega)]
      rw [if_neg (show ¬((0 : Int) > 0) by omega)]
      rw [if_neg he]

theorem noNl_flatMap (l : List readChunk) (h : ∀ c ∈ l, noNl (chunkData c)) :
    noNl (l.flatMap chunkData) := by
  intro b hb
  rw [List.mem_flatMap] at hb
  obtain ⟨c, hc, hbc⟩ := hb
  exact h c hc b hbc

theorem lastIdxNl_append_no_nl (a b : List Nat) (hb : noNl b) :
    lastIdxNl (a ++ b) = lastIdxNl a := by
  have h : lastIdxNl b = -1 := (lastIdxNl_neg_iff b).mpr hb
  rw [lastIdxNl_append, if_neg (show ¬(lastIdxNl b ≥ 0) by omega)]

theorem noNl_replicate_zero (n : Nat) : noNl (List.replicate n 0) := by
  intro b hb
  rw [List.eq_of_mem_replicate hb]
  omega

theorem segsFwd_length_le (l : List Nat) : (segsFwd l).length ≤ l.length + 1 := by
  induction l with
  | nil => simp [segsFwd]
  | cons b rest ih =>
      by_cases hb : b = 10
      · subst hb
        rw [segsFwd_cons_nl]
        simpa using ih
      · rw [segsFwd_cons_other b rest hb]
        have h := segsFwd_ne_nil rest
        simp only [List.length_cons, List.length_tail]
        omega

theorem readLine_sweep (content : List Nat) (fuel : Nat) :
    ∀ (cut : Nat) (s : BackwardsLineScanner),
      BkwSweep content cut s → s.nextPos < (fuel : Int) →
      ∃ s', ReadLine fuel s =
          some ((sweepLine content cut).1, (sweepLine content cut).2.1,
            (sweepLine content cut).2.2, s') ∧
        sweepPost content cut s' := by
  induction fuel with
  | zero =>
      intro cut s hsw hf
      obtain ⟨_, _, _, _, np', hnp', _⟩ := hsw
      rw [hnp'] at hf
      exact absurd hf (by omega)
  | succ fuel ih =>
      intro cut s hsw hf
      obtain ⟨hcont, hcaps, hcs, hcut, np', hnp', hnple, hflat, hpad, hnonl, hnnl, hle⟩ := hsw
      rw [hnp'] at hf
      have hnp'len : np' ≤ content.length := le_trans hnple hcut
      have hdecomp : content.take cut =
          content.take np' ++ (content.drop np').take (cut - np') := by
        have h2 : cut = np' + (cut - np') := by omega
        calc content.take cut = content.take (np' + (cut - np')) := by rw [← h2]
          _ = content.take np' ++ (content.drop np').take (cut - np') :=
              List.take_add content np' (cut - np')
      have hnr : noNl ((content.drop np').take (cut - np')) := by
        rw [← hflat]
        exact noNl_flatMap _ (fun c hc => hnonl c (List.mem_reverse.mp hc))
      have hcutnp : lastIdxNl (content.take cut) = lastIdxNl (content.take np') := by
        rw [hdecomp]
        exact lastIdxNl_append_no_nl _ _ hnr
      have hrm := readMore_ideal content s np' hcont hcaps hle hnp' hnp'len hcs
      rw [ReadLine]
      rw [if_neg (show ¬(s.lastErr = some GoErr.useAfterClose) by rw [hle]; simp)]
      rw [if_pos hnnl]
      rw [hrm]
      by_cases hE : np' - min np' s.chunkSize = 0
      · -- the chunk reaches the start of the file: io.EOF alongside the data
        rw [if_pos hE]
        dsimp only
        rw [if_neg (show ¬(some GoErr.eof ≠ none ∧ some GoErr.eof ≠ some GoErr.eof) by simp)]
        rw [List.getLast?_concat]
        dsimp only
        rw [if_pos hnnl]
        have htt : min np' s.chunkSize = np' := by omega
        rw [hE, htt, List.drop_zero]
        rw [lastIdxNl_append_no_nl (content.take np')
          (List.replicate (s.chunkSize - np') 0) (noNl_replicate_zero _)]
        have hlentake : np' ≤ (content.take np').length := by
          rw [List.length_take]; omega
        by_cases hneg : lastIdxNl (content.take np') = -1
        · -- no newline at all: the whole prefix is the final line
          have hnegcut : lastIdxNl (content.take cut) = -1 := by
            rw [hcutnp]; exact hneg
          rw [hneg]
          rw [if_pos (show (-1 : Int) ≠ -1 ∨ some GoErr.eof = some GoErr.eof from
            Or.inr rfl)]
          rw [if_neg (show ¬((-1 : Int) ≠ -1) by simp)]
          rw [if_neg (show ¬((-1 : Int) ≠ -1 ∧ some GoErr.eof = some GoErr.eof) by simp)]
          rw [show ((-1 : Int) + 1).toNat = 0 from rfl]
          rw [List.drop_zero]
          rw [List.take_append_of_le_length hlentake, List.take_take, min_self]
          rw [List.dropLast_concat]
          rw [show (fun (c : readChunk) => c.buf.take c.len) = chunkData from rfl, hflat]
          rw [← hdecomp]
          dsimp only
          refine ⟨⟨⟨content, if np' = 0 then s.reader.pos else (np' : Int), []⟩,
            ((0 : Nat) : Int), s.chunkSize, [], -1, some GoErr.eof⟩, ?_, ?_⟩
          · rw [sweepLine, if_pos hnegcut]
            dsimp only
            simp only [Option.some.injEq, Prod.mk.injEq, eq_self_iff_true, true_and,
              and_true]
            trivial
          · rw [sweepPost, if_pos hnegcut]
            exact ⟨rfl, Or.inr rfl, by simp⟩
        · -- a newline exists in the prefix
          obtain ⟨i, hi⟩ : ∃ i : Nat, lastIdxNl (content.take np') = (i : Int) := by
            have h1 := lastIdxNl_lb (content.take np')
            exact ⟨(lastIdxNl (content.take np')).toNat, by omega⟩
          have hicut : lastIdxNl (content.take cut) = (i : Int) := by
            rw [hcutnp]; exact hi
          have hiub : i < np' := by
            have h1 := lastIdxNl_ub (content.take np')
            rw [hi, List.length_take] at h1
            omega
          rw [hi]
          rw [if_pos (show (i : Int) ≠ -1 ∨ some GoErr.eof = some GoErr.eof from
            Or.inr rfl)]
          rw [if_pos (show (i : Int) ≠ -1 by omega)]
          rw [if_pos (show (i : Int) ≠ -1 ∧ some GoErr.eof = some GoErr.eof from
            ⟨by omega, rfl⟩)]
          rw [show ((i : Int) + 1).toNat = i + 1 from by omega]
          rw [List.take_append_of_le_length hlentake, List.take_take, min_self]
          rw [List.dropLast_concat]
          rw [show (fun (c : readChunk) => c.buf.take c.len) = chunkData from rfl, hflat]
          rw [Int.toNat_natCast]
          rw [List.take_append_of_le_length
            (show i ≤ (content.take np').length by rw [List.length_take]; omega)]
          rw [List.take_take, show i ⊓ np' = i from by omega]
          have hline : (content.take np').drop (i + 1) ++
              (content.drop np').take (cut - np') = (content.take cut).drop (i + 1) := by
            rw [hdecomp]
            rw [List.drop_append_of_le_length
              (show i + 1 ≤ (content.take np').length by rw [List.length_take]; omega)]
          have hnegcut : ¬(lastIdxNl (content.take cut) = -1) := by
            rw [hicut]; omega
          by_cases hipos : 0 < i
          · rw [if_pos (show (i : Int) > 0 by omega)]
            dsimp only
            refine ⟨⟨⟨content, if np' = 0 then s.reader.pos else (np' : Int), []⟩,
              ((0 : Nat) : Int), s.chunkSize, [⟨content.take i, i⟩],
              lastIdxNl (content.take i), some GoErr.eof⟩, ?_, ?_⟩
            · rw [sweepLine, if_neg hnegcut]
              dsimp only
              rw [hicut, Int.toNat_natCast]
              simp only [Option.some.injEq, Prod.mk.injEq, eq_self_iff_true, true_and,
                and_true, hline]
              first
              | trivial
              | omega
            · rw [sweepPost, if_neg hnegcut]
              rw [hicut, Int.toNat_natCast]
              refine ⟨rfl, rfl, hcs, by omega, Or.inr ⟨⟨content.take i, i⟩, 0, rfl, rfl,
                by omega, ?_, (show i = i - 0 by omega), ?_, rfl, Or.inr ⟨rfl, rfl⟩⟩⟩
              · simp
              · show (content.take i).length = i - 0
                rw [List.length_take]
                omega
          · have hizero : i = 0 := by omega
            subst hizero
            rw [if_neg (show ¬(((0 : Nat) : Int) > 0) by omega)]
            dsimp only
            refine ⟨⟨⟨content, if np' = 0 then s.reader.pos else (np' : Int), []⟩,
              ((0 : Nat) : Int), s.chunkSize, [⟨[], 0⟩],
              lastIdxNl ([] : List Nat), some GoErr.eof⟩, ?_, ?_⟩
            · rw [sweepLine, if_neg hnegcut]
              dsimp only
              rw [hicut, Int.toNat_natCast]
              simp only [Option.some.injEq, Prod.mk.injEq, eq_self_iff_true, true_and,
                and_true, hline]
              trivial
            · rw [sweepPost, if_neg hnegcut]
              rw [hicut, Int.toNat_natCast]
              refine ⟨rfl, rfl, hcs, by omega, Or.inr ⟨⟨[], 0⟩, 0, rfl, rfl,
                by omega, by simp, (show (0 : Nat) = 0 - 0 by omega),
                (show ([] : List Nat).length = 0 - 0 by simp), rfl, Or.inr ⟨rfl, rfl⟩⟩⟩
      · -- a full chunk strictly inside the file
        rw [if_neg hE]
        dsimp only
        rw [if_neg (show ¬((none : Option GoErr) ≠ none ∧
          (none : Option GoErr) ≠ some GoErr.eof) by simp)]
        rw [List.getLast?_concat]
        dsimp only
        rw [if_pos hnnl]
        have htscs : min np' s.chunkSize = s.chunkSize := by omega
        rw [htscs]
        rw [Nat.sub_self, List.replicate_zero, List.append_nil]
        have hdlen : ((content.drop (np' - s.chunkSize)).take s.chunkSize).length
            = s.chunkSize := by
          rw [List.length_take, List.length_drop]; omega
        have hcd : chunkData
            (⟨(content.drop (np' - s.chunkSize)).take s.chunkSize, s.chunkSize⟩ : readChunk)
            = (content.drop (np' - s.chunkSize)).take s.chunkSize :=
          List.take_of_length_le (le_of_eq hdlen)
        have hdecomp2 : content.take np' = content.take (np' - s.chunkSize) ++
            (content.drop (np' - s.chunkSize)).take s.chunkSize := by
          have h2 : np' = (np' - s.chunkSize) + s.chunkSize := by omega
          calc content.take np'
              = content.take ((np' - s.chunkSize) + s.chunkSize) := by rw [← h2]
            _ = _ := List.take_add content (np' - s.chunkSize) s.chunkSize
        by_cases hnegd : lastIdxNl ((content.drop (np' - s.chunkSize)).take s.chunkSize) = -1
        · -- no newline in this chunk: keep sweeping
          rw [hnegd]
          rw [if_neg (show ¬((-1 : Int) ≠ -1 ∨ (none : Option GoErr) = some GoErr.eof)
            by simp)]
          apply ih
          · refine ⟨rfl, rfl, hcs, hcut, np' - s.chunkSize, rfl, by omega, ?_, ?_, ?_,
              hnnl, hle⟩
            · have hrev : ((s.chunks ++
                  [(⟨(content.drop (np' - s.chunkSize)).take s.chunkSize,
                     s.chunkSize⟩ : readChunk)]).reverse) =
                  (⟨(content.drop (np' - s.chunkSize)).take s.chunkSize,
                    s.chunkSize⟩ : readChunk) :: s.chunks.reverse := by
                simp
              rw [hrev, List.flatMap_cons, hcd, hflat]
              have h1 : cut - (np' - s.chunkSize) = s.chunkSize + (cut - np') := by omega
              rw [h1, List.take_add]
              congr 1
              rw [List.drop_drop]
              rw [show np' - s.chunkSize + s.chunkSize = np' from by omega]
            · intro c hc
              rcases List.mem_append.mp hc with h | h
              · exact hpad c h
              · rw [List.mem_singleton.mp h]
                exact ⟨le_of_eq hdlen.symm,
                  by rw [List.drop_eq_nil_of_le (le_of_eq hdlen)]; intro b hb; simp at hb⟩
            · intro c hc
              rcases List.mem_append.mp hc with h | h
              · exact hnonl c h
              · rw [List.mem_singleton.mp h, hcd]
                exact (lastIdxNl_neg_iff _).mp hnegd
          · show ((np' - s.chunkSize : Nat) : Int) < (fuel : Int)
            omega
        · -- the newline turned up in this chunk
          obtain ⟨j, hjj⟩ : ∃ j : Nat,
              lastIdxNl ((content.drop (np' - s.chunkSize)).take s.chunkSize) = (j : Int) := by
            have h1 := lastIdxNl_lb ((content.drop (np' - s.chunkSize)).take s.chunkSize)
            exact ⟨(lastIdxNl ((content.drop (np' - s.chunkSize)).take s.chunkSize)).toNat,
              by omega⟩
          have hjub : j < s.chunkSize := by
            have h1 := lastIdxNl_ub ((content.drop (np' - s.chunkSize)).take s.chunkSize)
            rw [hjj, hdlen] at h1
            exact_mod_cast h1
          have habs : lastIdxNl (content.take cut)
              = ((np' - s.chunkSize + j : Nat) : Int) := by
            rw [hcutnp, hdecomp2, lastIdxNl_append,
              if_pos (show lastIdxNl ((content.drop (np' - s.chunkSize)).take s.chunkSize)
                ≥ 0 by rw [hjj]; omega), hjj, List.length_take]
            omega
          have hnegcut : ¬(lastIdxNl (content.take cut) = -1) := by
            rw [habs]; omega
          rw [hjj]
          rw [if_pos (show (j : Int) ≠ -1 ∨ (none : Option GoErr) = some GoErr.eof from
            Or.inl (by omega))]
          rw [if_pos (show (j : Int) ≠ -1 by omega)]
          rw [if_neg (show ¬((j : Int) ≠ -1 ∧ (none : Option GoErr) = some GoErr.eof)
            by simp)]
          rw [show ((j : Int) + 1).toNat = j + 1 from by omega]
          rw [show ((content.drop (np' - s.chunkSize)).take s.chunkSize).take s.chunkSize
            = (content.drop (np' - s.chunkSize)).take s.chunkSize from
            List.take_of_length_le (le_of_eq hdlen)]
          rw [List.dropLast_concat]
          rw [show (fun (c : readChunk) => c.buf.take c.len) = chunkData from rfl, hflat]
          rw [Int.toNat_natCast]
          rw [List.take_take, show j ⊓ s.chunkSize = j from by omega]
          have hline : ((content.drop (np' - s.chunkSize)).take s.chunkSize).drop (j + 1) ++
              (content.drop np').take (cut - np')
              = (content.take cut).drop (np' - s.chunkSize + j + 1) := by
            rw [hdecomp, hdecomp2, List.append_assoc]
            rw [show np' - s.chunkSize + j + 1
              = (content.take (np' - s.chunkSize)).length + (j + 1) by
                rw [List.length_take]; omega]
            rw [List.drop_append]
            rw [List.drop_append_of_le_length (by rw [hdlen]; omega)]
          by_cases hjpos : 0 < j
          · rw [if_pos (show (j : Int) > 0 by omega)]
            dsimp only
            refine ⟨⟨⟨content, if np' = 0 then s.reader.pos else (np' : Int), []⟩,
              ((np' - s.chunkSize : Nat) : Int), s.chunkSize,
              [⟨(content.drop (np' - s.chunkSize)).take j, j⟩],
              lastIdxNl ((content.drop (np' - s.chunkSize)).take j), s.lastErr⟩, ?_, ?_⟩
            · rw [sweepLine, if_neg hnegcut]
              dsimp only
              rw [habs, Int.toNat_natCast]
              simp only [Option.some.injEq, Prod.mk.injEq, eq_self_iff_true, true_and,
                and_true, hline]
              trivial
            · rw [sweepPost, if_neg hnegcut]
              rw [habs, Int.toNat_natCast]
              refine ⟨rfl, rfl, hcs, by omega, Or.inr
                ⟨⟨(content.drop (np' - s.chunkSize)).take j, j⟩, np' - s.chunkSize,
                  rfl, rfl, by omega,
                  ?_, (show j = np' - s.chunkSize + j - (np' - s.chunkSize) by omega),
                  ?_, rfl, Or.inl hle⟩⟩
              · show (content.drop (np' - s.chunkSize)).take j
                  = (content.drop (np' - s.chunkSize)).take
                    (np' - s.chunkSize + j - (np' - s.chunkSize))
                congr 1
                omega
              · show ((content.drop (np' - s.chunkSize)).take j).length
                  = np' - s.chunkSize + j - (np' - s.chunkSize)
                rw [List.length_take, List.length_drop]
                omega
          · have hjzero : j = 0 := by omega
            subst hjzero
            rw [if_neg (show ¬(((0 : Nat) : Int) > 0) by omega)]
            dsimp only
            refine ⟨⟨⟨content, if np' = 0 then s.reader.pos else (np' : Int), []⟩,
              ((np' - s.chunkSize : Nat) : Int), s.chunkSize, [⟨[], 0⟩],
              lastIdxNl ([] : List Nat), s.lastErr⟩, ?_, ?_⟩
            · rw [sweepLine, if_neg hnegcut]
              dsimp only
              rw [habs, Int.toNat_natCast]
              simp only [Option.some.injEq, Prod.mk.injEq, eq_self_iff_true, true_and,
                and_true, hline]
              trivial
            · rw [sweepPost, if_neg hnegcut]
              rw [habs, Int.toNat_natCast]
              refine ⟨rfl, rfl, hcs, by omega, Or.inr ⟨⟨[], 0⟩, np' - s.chunkSize,
                rfl, rfl, by omega, ?_,
                (show (0 : Nat) = np' - s.chunkSize + 0 - (np' - s.chunkSize) by omega),
                (show ([] : List Nat).length
                  = np' - s.chunkSize + 0 - (np' - s.chunkSize) by simp),
                rfl, Or.inl hle⟩⟩
              show ([] : List Nat) = (content.drop (np' - s.chunkSize)).take
                (np' - s.chunkSize + 0 - (np' - s.chunkSize))
              rw [show np' - s.chunkSize + 0 - (np' - s.chunkSize) = 0 from by omega]
              rfl

theorem readLine_step (content : List Nat) (fuel cut : Nat)
    (s : BackwardsLineScanner) (hb : BkwBetween content cut s)
    (hfuel : (cut : Int) < (fuel : Int)) :
    ∃ s', ReadLine fuel s =
        some ((sweepLine content cut).1, (sweepLine content cut).2.1,
          (sweepLine content cut).2.2, s') ∧
      sweepPost content cut s' := by
  obtain ⟨hcont, hcaps, hcs, hcut, hcase⟩ := hb
  rcases hcase with ⟨hch, hnnl, hle, hnp⟩ |
    ⟨c, np, hch, hnp, hnple, hbuf, hlen, hblen, hnnl, herr⟩
  · -- nothing retained: this is a sweep state with an empty cover
    apply readLine_sweep content fuel cut s
    · refine ⟨hcont, hcaps, hcs, hcut, cut, hnp, le_refl _, ?_, ?_, ?_, hnnl, hle⟩
      · rw [hch]; simp
      · rw [hch]; simp
      · rw [hch]; simp
    · rw [hnp]; exact hfuel
  · by_cases hnl : lastIdxNl c.buf = -1
    · rcases herr with hle | ⟨hle, hnp0⟩
      · -- newline-free residual chunk and no stored error: also a sweep state
        apply readLine_sweep content fuel cut s
        · refine ⟨hcont, hcaps, hcs, hcut, np, hnp, hnple, ?_, ?_, ?_,
            by rw [hnnl, hnl], hle⟩
          · rw [hch]
            simp only [List.reverse_singleton, List.flatMap_cons]
            rw [show chunkData c = c.buf from List.take_of_length_le (by omega), hbuf]
            simp
          · intro c' hc'
            rw [hch, List.mem_singleton] at hc'
            subst hc'
            exact ⟨by omega, by rw [List.drop_eq_nil_of_le (by omega)]; intro b hb; simp at hb⟩
          · intro c' hc'
            rw [hch, List.mem_singleton] at hc'
            subst hc'
            rw [show chunkData c' = c'.buf from List.take_of_length_le (by omega)]
            exact (lastIdxNl_neg_iff _).mp hnl
        · rw [hnp]; omega
      · -- stored io.EOF at the start of the file: the final line comes straight out
        subst hnp0
        have hbuf' : c.buf = content.take cut := by rw [hbuf]; simp
        have hnegcut : lastIdxNl (content.take cut) = -1 := by rw [← hbuf']; exact hnl
        cases fuel with
        | zero => exact absurd hfuel (by omega)
        | succ f =>
          rw [ReadLine, if_neg (show ¬(s.lastErr = some GoErr.useAfterClose) by
            rw [hle]; simp)]
          rw [if_pos (show s.nextNewLine = -1 by rw [hnnl, hnl])]
          have hrm : readMore s = (s, 0, some GoErr.eof) := by rw [readMore, hle]
          rw [hrm]
          dsimp only
          have hs : { s with lastErr := some GoErr.eof } = s := by
            obtain ⟨a1, a2, a3, a4, a5, a6⟩ := s
            simp_all
          rw [hs]
          rw [if_neg (show ¬(some GoErr.eof ≠ none ∧ some GoErr.eof ≠ some GoErr.eof)
            by simp)]
          rw [hch, show ([c] : List readChunk).getLast? = some c from rfl]
          dsimp only
          rw [if_pos (show s.nextNewLine = -1 by rw [hnnl, hnl])]
          rw [hnl]
          rw [if_pos (show (-1 : Int) ≠ -1 ∨ some GoErr.eof = some GoErr.eof from
            Or.inr rfl)]
          rw [if_neg (show ¬((-1 : Int) ≠ -1) by simp)]
          rw [if_neg (show ¬((-1 : Int) ≠ -1 ∧ some GoErr.eof = some GoErr.eof) by simp)]
          rw [show ((-1 : Int) + 1).toNat = 0 from rfl, List.drop_zero]
          rw [show c.buf.take c.len = c.buf from List.take_of_length_le (by omega)]
          rw [show ([c] : List readChunk).dropLast = [] from rfl]
          rw [show (([] : List readChunk).reverse.flatMap fun c => c.buf.take c.len)
            = [] from rfl]
          rw [List.append_nil, hbuf', hnp]
          refine ⟨⟨s.reader, ((0 : Nat) : Int), s.chunkSize, [], -1, some GoErr.eof⟩,
            ?_, ?_⟩
          · rw [sweepLine, if_pos hnegcut]
            dsimp only
            simp only [Option.some.injEq, Prod.mk.injEq, eq_self_iff_true, true_and,
              and_true]
            trivial
          · rw [sweepPost, if_pos hnegcut]
            exact ⟨rfl, Or.inr rfl, by simp⟩
    · -- a cached newline: the fast path, no read at all
      obtain ⟨i, hi⟩ : ∃ i : Nat, lastIdxNl c.buf = (i : Int) :=
        ⟨(lastIdxNl c.buf).toNat, by have := lastIdxNl_lb c.buf; omega⟩
      have hiub : i < cut - np := by
        have h1 := lastIdxNl_ub c.buf
        rw [hi, hblen] at h1
        exact_mod_cast h1
      have htd : content.take cut = content.take np ++ c.buf := by
        have h2 : cut = np + (cut - np) := by omega
        calc content.take cut = content.take (np + (cut - np)) := by rw [← h2]
          _ = content.take np ++ (content.drop np).take (cut - np) :=
              List.take_add content np (cut - np)
          _ = content.take np ++ c.buf := by rw [← hbuf]
      have habs : lastIdxNl (content.take cut) = ((np + i : Nat) : Int) := by
        rw [htd, lastIdxNl_append, if_pos (show lastIdxNl c.buf ≥ 0 by rw [hi]; omega),
          hi, List.length_take]
        omega
      have hnegcut : ¬(lastIdxNl (content.take cut) = -1) := by rw [habs]; omega
      have hline : c.buf.drop (i + 1) = (content.take cut).drop (np + i + 1) := by
        rw [htd, show np + i + 1 = (content.take np).length + (i + 1) from by
          rw [List.length_take]; omega, List.drop_append]
      cases fuel with
      | zero => exact absurd hfuel (by omega)
      | succ f =>
        rw [ReadLine, if_neg (show ¬(s.lastErr = some GoErr.useAfterClose) by
          rcases herr with h | ⟨h, _⟩ <;> rw [h] <;> simp)]
        rw [if_neg (show ¬(s.nextNewLine = -1) by rw [hnnl, hi]; omega)]
        dsimp only
        rw [if_neg (show ¬((none : Option GoErr) ≠ none ∧
          (none : Option GoErr) ≠ some GoErr.eof) by simp)]
        rw [hch, show ([c] : List readChunk).getLast? = some c from rfl]
        dsimp only
        rw [if_neg (show ¬(s.nextNewLine = -1) by rw [hnnl, hi]; omega)]
        rw [hnnl, hi]
        rw [if_pos (show (i : Int) ≠ -1 ∨ (none : Option GoErr) = some GoErr.eof from
          Or.inl (by omega))]
        rw [if_pos (show (i : Int) ≠ -1 by omega)]
        rw [if_neg (show ¬((i : Int) ≠ -1 ∧ (none : Option GoErr) = some GoErr.eof)
          by simp)]
        rw [show ((i : Int) + 1).toNat = i + 1 from by omega, Int.toNat_natCast]
        rw [show c.buf.take c.len = c.buf from List.take_of_length_le (by omega)]
        rw [show ([c] : List readChunk).dropLast = [] from rfl]
        rw [show (([] : List readChunk).reverse.flatMap fun c => c.buf.take c.len)
          = [] from rfl]
        rw [List.append_nil, hnp]
        by_cases hipos : 0 < i
        · rw [if_pos (show (i : Int) > 0 by omega)]
          dsimp only
          refine ⟨⟨s.reader, ((np : Nat) : Int), s.chunkSize, [⟨c.buf.take i, i⟩],
            lastIdxNl (c.buf.take i), s.lastErr⟩, ?_, ?_⟩
          · rw [sweepLine, if_neg hnegcut]
            dsimp only
            rw [habs, Int.toNat_natCast]
            simp only [Option.some.injEq, Prod.mk.injEq, eq_self_iff_true, true_and,
              and_true, hline]
            trivial
          · rw [sweepPost, if_neg hnegcut]
            rw [habs, Int.toNat_natCast]
            refine ⟨hcont, hcaps, hcs, by omega, Or.inr ⟨⟨c.buf.take i, i⟩, np, rfl, rfl,
              by omega, ?_, (show i = np + i - np by omega), ?_, rfl, ?_⟩⟩
            · show c.buf.take i = (content.drop np).take (np + i - np)
              rw [hbuf, List.take_take]
              congr 1
              omega
            · show (c.buf.take i).length = np + i - np
              rw [List.length_take, hblen]
              omega
            · exact herr
        · have hizero : i = 0 := by omega
          subst hizero
          rw [if_neg (show ¬(((0 : Nat) : Int) > 0) by omega)]
          dsimp only
          refine ⟨⟨s.reader, ((np : Nat) : Int), s.chunkSize, [⟨[], 0⟩],
            lastIdxNl ([] : List Nat), s.lastErr⟩, ?_, ?_⟩
          · rw [sweepLine, if_neg hnegcut]
            dsimp only
            rw [habs, Int.toNat_natCast]
            simp only [Option.some.injEq, Prod.mk.injEq, eq_self_iff_true, true_and,
              and_true, hline]
            trivial
          · rw [sweepPost, if_neg hnegcut]
            rw [habs, Int.toNat_natCast]
            refine ⟨hcont, hcaps, hcs, by omega, Or.inr ⟨⟨[], 0⟩, np, rfl, rfl,
              by omega, ?_, (show (0 : Nat) = np + 0 - np by omega),
              (show ([] : List Nat).length = np + 0 - np by simp), rfl, ?_⟩⟩
            · show ([] : List Nat) = (content.drop np).take (np + 0 - np)
              rw [show np + 0 - np = 0 from by omega]
              rfl
            · exact herr

theorem collectBackward_spec (content : List Nat) (innerFuel : Nat)
    (hF : content.length < innerFuel) :
    ∀ (n : Nat) (cut : Nat) (s : BackwardsLineScanner),
      BkwBetween content cut s → (segsFwd (content.take cut)).length ≤ n →
      ∃ ps, collectBackward innerFuel n s = some ps ∧
        ps.map Prod.fst = (segsFwd (content.take cut)).reverse := by
  intro n
  induction n with
  | zero =>
      intro cut s _ hlen
      have h1 : 0 < (segsFwd (content.take cut)).length :=
        List.length_pos.mpr (segsFwd_ne_nil _)
      omega
  | succ n ih =>
      intro cut s hb hlen
      have hcut : cut ≤ content.length := hb.2.2.2.1
      obtain ⟨s', hrl, hpost⟩ := readLine_step content innerFuel cut s hb (by omega)
      rw [collectBackward, hrl]
      by_cases hneg : lastIdxNl (content.take cut) = -1
      · rw [sweepLine, if_pos hneg]
        dsimp only
        refine ⟨[(content.take cut, 0)], rfl, ?_⟩
        rw [segsFwd_no_nl _ ((lastIdxNl_neg_iff _).mp hneg)]
        rfl
      · obtain ⟨i, hi⟩ : ∃ i : Nat, lastIdxNl (content.take cut) = (i : Int) :=
          ⟨(lastIdxNl (content.take cut)).toNat,
            by have := lastIdxNl_lb (content.take cut); omega⟩
        have hiub : i < cut := by
          have h1 := lastIdxNl_ub (content.take cut)
          rw [hi, List.length_take] at h1
          omega
        obtain ⟨u, v, huv, hulen, hvnn⟩ := lastIdxNl_spec (content.take cut) i hi
        have hpost' : BkwBetween content i s' := by
          rw [sweepPost, if_neg hneg, hi, Int.toNat_natCast] at hpost
          exact hpost
        have htakei : content.take i = u := by
          have h1 : (content.take cut).take i = u := by
            rw [huv, List.take_append_of_le_length (by omega),
              List.take_of_length_le (by omega)]
          rw [← h1, List.take_take]
          congr 1
          omega
        have hsegs : segsFwd (content.take cut) = segsFwd (content.take i) ++ [v] := by
          rw [huv, segsFwd_append_nl u v hvnn, htakei]
        have hlen' : (segsFwd (content.take i)).length ≤ n := by
          rw [hsegs, List.length_append] at hlen
          simp only [List.length_singleton] at hlen
          omega
        obtain ⟨ps, hps, hmap⟩ := ih i s' hpost' hlen'
        rw [sweepLine, if_neg hneg]
        dsimp only
        rw [hps]
        refine ⟨_, rfl, ?_⟩
        have hlinev : (content.take cut).drop ((lastIdxNl (content.take cut)).toNat + 1)
            = v := by
          rw [hi, Int.toNat_natCast, huv, ← hulen, List.drop_append]
          rfl
        rw [List.map_cons, hmap]
        dsimp only [Option.getD]
        rw [hlinev, hsegs, List.reverse_append]
        rfl

theorem backwardLines_eq (content : List Nat) (cs : Nat) (hcs : 1 ≤ cs) :
    backwardLines content cs = some ((segsFwd content).reverse) := by
  rw [backwardLines]
  have hb : BkwBetween content content.length (NewBackwardsLineScanner content cs) :=
    ⟨rfl, rfl, hcs, le_refl _, Or.inl ⟨rfl, rfl, rfl, rfl⟩⟩
  have hseg : (segsFwd (content.take content.length)).length ≤ content.length + 2 := by
    rw [List.take_length]
    have := segsFwd_length_le content
    omega
  obtain ⟨ps, hps, hmap⟩ := collectBackward_spec content (content.length + 2) (by omega)
    (content.length + 2) content.length (NewBackwardsLineScanner content cs) hb hseg
  rw [hps]
  dsimp only [Option.map]
  rw [show (fun (p : List Nat × Int) => p.1)
    = (Prod.fst : List Nat × Int → List Nat) from rfl]
  rw [hmap, List.take_length]

/-- C1 (counterexample to the literal claim): for the one-byte file `"a"` the
forward scanner, which parks on the unterminated final line and reports
`false`, emits no lines at all, while the backward scanner returns that line;
so `reverse(lines_forward(F)) = lines_backward(F)` fails. -/
theorem c1_forward_backward_counterexample :
    backwardLines [97] 5 = some [[97]] ∧ (forwardLines [97]).reverse = [] :=
  ⟨by decide, by decide⟩

/-- C1 (amended): a whole-file backward scan returns exactly the forward
scanner's lines plus the trailing segment after the last newline (the whole
content when no newline exists — forced, because the forward scanner never
emits an unterminated line while the backward scanner always does), in
reverse order.  Holds for every file and every chunk size ≥ 1. -/
theorem c1_forward_backward_amended (content : List Nat) (cs : Nat) (hcs : 1 ≤ cs) :
    backwardLines content cs
      = some ((forwardLines content ++ [trailingSeg content]).reverse) := by
  rw [backwardLines_eq content cs hcs, forwardLines_eq, trailingSeg]
  have hne := segsFwd_ne_nil content
  have h2 : (segsFwd content).dropLast ++ [(segsFwd content).getLastD []]
      = segsFwd content := by
    rw [List.getLastD_eq_getLast?, List.getLast?_eq_getLast _ hne]
    dsimp only [Option.getD]
    exact List.dropLast_append_getLast? _ (List.getLast?_eq_getLast _ hne)
  rw [h2]

/-- C1 witness: the amended relation instantiated on the test file
`"hi\nhello"` with chunk size 5. -/
theorem c1_forward_backward_amended_witness :
    1 ≤ 5 ∧ backwardLines (strBytes "hi\nhello") 5
      = some ((forwardLines (strBytes "hi\nhello") ++
          [trailingSeg (strBytes "hi\nhello")]).reverse) :=
  ⟨by decide, c1_forward_backward_amended (strBytes "hi\nhello") 5 (by decide)⟩

end Gote
